import Mathlib

set_option maxHeartbeats 1000000

namespace ODS

/-! Shallow embedding of `src/linear_hash_table.rs` and the `Multiplicative`
hasher of `src/hashers.rs`.  Rust `u64` keys are modelled as `Nat` (the table
code never overflows keys; the one place wrapping arithmetic occurs, the
multiplicative hasher, carries an explicit `% 2 ^ 64`).  The unbounded probe
loops of `contains`, `insert` and `remove` are modelled with fuel equal to
`table.length`: since the probe position evolves by `i ↦ (i + 1) % n`, after
`n` steps the loop revisits slots and can never terminate, so running out of
fuel (`none`) models divergence, and an out-of-range index (`none` from
`getElem?`) models the Rust panic. -/

/-- Slot state (`Entry<T>` in the source, `T = u64`): `Val` an occupied slot,
`Nil` an empty slot, `Del` a tombstone. -/
inductive Entry where
  | Val : Nat → Entry
  | Nil : Entry
  | Del : Entry
deriving DecidableEq

/-- The two user-facing error values of the table. -/
inductive Error where
  | KeyAlreadyExists
  | KeyNotFound
deriving DecidableEq

/-- The open-addressing table.  `dim` is the capacity exponent, `table` the
flat slot array, `q` the occupied counter (field `q` in the source), `len`
the live counter, `hasher` the injected hash capability
(`hash(x, dim) -> word` of the `DimHasher` trait). -/
structure LinearHashTable where
  dim : Nat
  table : List Entry
  q : Nat
  len : Nat
  hasher : Nat → Nat → Nat

namespace LinearHashTable

/-- Model of `Self::new_table(dim)`: a fresh all-empty array of length
`2^dim`.  (The `assert!(dim > 0)` in the source never fires: every caller
passes `dim ≥ 1`.) -/
def new_table (dim : Nat) : List Entry :=
  List.replicate (2 ^ dim) Entry.Nil

/-- Model of `initialize(hasher)` (named `init` because `initialize` is a
keyword in Lean). -/
def init (hasher : Nat → Nat → Nat) : LinearHashTable :=
  { dim := 1, table := new_table 1, q := 0, len := 0, hasher := hasher }

/-- Model of `self.hash(x)`: the hasher applied at the current `dim` (the
`usize` cast is the identity on `Nat`). -/
def hash (t : LinearHashTable) (x : Nat) : Nat :=
  t.hasher x t.dim

/-- Model of `self.loop_index(i)`. -/
def loop_index (t : LinearHashTable) (i : Nat) : Nat :=
  i % t.table.length

/-- The probe loop of `contains`, fuelled: `some b` means the Rust loop
returns `b`, `none` means it panics (index out of range) or never
terminates. -/
def containsLoop (t : LinearHashTable) (x : Nat) : Nat → Nat → Option Bool
  | 0, _ => none
  | fuel + 1, i =>
    match t.table[i]? with
    | some (Entry.Val y) =>
        if y = x then some true else containsLoop t x fuel (t.loop_index (i + 1))
    | some Entry.Nil => some false
    | some Entry.Del => containsLoop t x fuel (t.loop_index (i + 1))
    | none => none

/-- Model of `contains(x)`. -/
def contains (t : LinearHashTable) (x : Nat) : Option Bool :=
  containsLoop t x t.table.length (t.hash x)

/-- The probe loop of `insert`, fuelled: finds the first non-`Val` slot from
the start index, returning its index and its old entry. -/
def insertLoop (t : LinearHashTable) : Nat → Nat → Option (Nat × Entry)
  | 0, _ => none
  | fuel + 1, i =>
    match t.table[i]? with
    | some (Entry.Val _) => insertLoop t fuel (t.loop_index (i + 1))
    | some e => some (i, e)
    | none => none

/-- Model of `self.insert(x)`: place `x` in the first `Nil` or `Del` slot of
its probe sequence and return the displaced entry together with the updated
table. -/
def insert (t : LinearHashTable) (x : Nat) : Option (Entry × LinearHashTable) :=
  match insertLoop t t.table.length (t.hash x) with
  | some (i, e) => some (e, { t with table := t.table.set i (Entry.Val x) })
  | none => none

/-- Model of `self.grow_invariant_holds()`. -/
def grow_invariant_holds (t : LinearHashTable) : Prop :=
  2 * (t.q + 1) ≤ t.table.length

instance (t : LinearHashTable) : Decidable t.grow_invariant_holds := by
  unfold grow_invariant_holds
  infer_instance

/-- Model of `self.shrink_invariant_holds()`. -/
def shrink_invariant_holds (t : LinearHashTable) : Prop :=
  t.table.length ≤ 8 * t.len

instance (t : LinearHashTable) : Decidable t.shrink_invariant_holds := by
  unfold shrink_invariant_holds
  infer_instance

/-- The `new_dim` computation of `resize`:
`let mut new_dim = 1; while 2^new_dim < 3 * len { new_dim += 1 }`. -/
def resizeDimLoop (len : Nat) (d : Nat) : Nat :=
  if 2 ^ d < 3 * len then resizeDimLoop len (d + 1) else d
termination_by 3 * len - 2 ^ d
decreasing_by
  have h2 : 2 ^ d < 2 ^ (d + 1) := Nat.pow_lt_pow_succ (by omega)
  omega

/-- The re-insertion loop of `resize`:
`for x in table { if let Entry::Val(y) = x { let _ = self.insert(y); } }`. -/
def reinsertAll : List Entry → LinearHashTable → Option LinearHashTable
  | [], t => some t
  | Entry.Val y :: rest, t =>
    match t.insert y with
    | some (_, t') => reinsertAll rest t'
    | none => none
  | _ :: rest, t => reinsertAll rest t

/-- Model of `self.resize()`: compute the new dimension from `3 * self.len()`,
swap in a fresh empty table, and re-insert every `Val` of the old table.
The counters `q` and `len` are left untouched (the source never writes to
them in `resize`). -/
def resize (t : LinearHashTable) : Option LinearHashTable :=
  let new_dim := resizeDimLoop t.len 1
  reinsertAll t.table { t with dim := new_dim, table := new_table new_dim }

/-- Model of `add(x)`.  The returned table is the state of `self` after the
call (unchanged in the error case, exactly as in the source, whose error
branch performs no mutation). -/
def add (t : LinearHashTable) (x : Nat) :
    Option (LinearHashTable × Except Error Unit) :=
  match t.contains x with
  | none => none
  | some true => some (t, Except.error Error.KeyAlreadyExists)
  | some false =>
    match (if t.grow_invariant_holds then some t else t.resize) with
    | none => none
    | some t1 =>
      match t1.insert x with
      | none => none
      | some (e, t2) =>
        let t3 := if e = Entry.Nil then { t2 with q := t2.q + 1 } else t2
        some ({ t3 with len := t3.len + 1 }, Except.ok ())

/-- The probe loop of `remove`, fuelled.  On a match the slot becomes a
tombstone, `len` is decremented and the shrink check may trigger a resize;
on `Nil` the table is returned unchanged with `KeyNotFound`. -/
def removeLoop (t : LinearHashTable) (x : Nat) :
    Nat → Nat → Option (LinearHashTable × Except Error Unit)
  | 0, _ => none
  | fuel + 1, i =>
    match t.table[i]? with
    | some (Entry.Val y) =>
      if y = x then
        let t1 : LinearHashTable :=
          { t with table := t.table.set i Entry.Del, len := t.len - 1 }
        if t1.shrink_invariant_holds then some (t1, Except.ok ())
        else
          match t1.resize with
          | some t2 => some (t2, Except.ok ())
          | none => none
      else removeLoop t x fuel (t.loop_index (i + 1))
    | some Entry.Nil => some (t, Except.error Error.KeyNotFound)
    | some Entry.Del => removeLoop t x fuel (t.loop_index (i + 1))
    | none => none

/-- Model of `remove(x)`. -/
def remove (t : LinearHashTable) (x : Nat) :
    Option (LinearHashTable × Except Error Unit) :=
  removeLoop t x t.table.length (t.hash x)

/-- The key of an occupied slot. -/
def keyOf : Entry → Option Nat
  | Entry.Val x => some x
  | _ => none

/-- The finite sequence of keys yielded by `self.iter()`
(`LinearHashTableIterator::next`): a left-to-right scan over the slots,
yielding `Val` keys only. -/
def iterKeys (t : LinearHashTable) : List Nat :=
  t.table.filterMap keyOf

/-- Model of `PartialEq::eq` for tables:
`self.len() == other.len() && self.iter().all(|x| other.contains(*x))`,
with the short-circuit structure of `&&` and `all` made explicit.  `none`
means one of the `contains` calls diverged. -/
def allContains (t : LinearHashTable) : List Nat → Option Bool
  | [] => some true
  | x :: xs =>
    match t.contains x with
    | some true => allContains t xs
    | some false => some false
    | none => none

/-- Model of `t1 == t2` (the `PartialEq` implementation). -/
def tableEq (t1 t2 : LinearHashTable) : Option Bool :=
  if t1.len = t2.len then allContains t2 t1.iterKeys else some false

end LinearHashTable

/-- Test for an occupied slot. -/
def Entry.isVal : Entry → Bool
  | Entry.Val _ => true
  | _ => false

/-- Test for an empty slot. -/
def Entry.isNil : Entry → Bool
  | Entry.Nil => true
  | _ => false

/-- Number of occupied slots of a slot array. -/
def countVal (l : List Entry) : Nat :=
  l.countP Entry.isVal

/-- Number of non-empty (occupied or tombstoned) slots of a slot array. -/
def countNonNil (l : List Entry) : Nat :=
  l.countP (fun e => !e.isNil)

/-- The slot visited after `j` probe steps when looking up `x`: the probe
sequence of §4 (start at `hash(x)`, then `i ↦ (i + 1) % slots.length`). -/
def probePos (t : LinearHashTable) (x j : Nat) : Nat :=
  (t.hash x + j) % t.table.length

/-- The "continue" condition of the probe loops: the slot holds another key
or a tombstone, so the probe steps on. -/
def contStep (t : LinearHashTable) (x j : Nat) : Prop :=
  (∃ y, y ≠ x ∧ t.table[probePos t x j]? = some (Entry.Val y)) ∨
    t.table[probePos t x j]? = some Entry.Del

/-- The probe path from `hash(x)` reaches slot `p` without crossing an empty
slot: the cluster property that makes `contains` find `x` at `p`. -/
def probeFree (t : LinearHashTable) (x p : Nat) : Prop :=
  ∃ k, k < t.table.length ∧ probePos t x k = p ∧
    ∀ j, j < k → t.table[probePos t x j]? ≠ some Entry.Nil

instance (t : LinearHashTable) (x p : Nat) : Decidable (probeFree t x p) := by
  unfold probeFree
  infer_instance

/-- Slot `p` is well-placed: if it holds a key, that key is reachable from
its hash bucket without crossing an empty slot. -/
def slotOk (t : LinearHashTable) (p : Nat) : Prop :=
  match t.table[p]? with
  | some (Entry.Val x) => probeFree t x p
  | _ => True

instance (t : LinearHashTable) (p : Nat) : Decidable (slotOk t p) := by
  unfold slotOk
  split <;> infer_instance

/-- Every occupied slot of the table is well-placed. -/
def probedOk (t : LinearHashTable) : Prop :=
  ∀ p, p < t.table.length → slotOk t p

instance (t : LinearHashTable) : Decidable (probedOk t) := by
  unfold probedOk
  exact Nat.decidableBallLT _ _

/-- The representation invariant of the table, maintained by every public
operation (the conjuncts are established by `reachable_wf` below):
capacity is `2^dim` with `dim ≥ 1`; `len` counts the occupied slots; `q`
bounds the non-empty slots; at most half the slots are non-empty; the
capacity collapses to 2 when the table is emptied and otherwise stays within
`8 * len`; keys are pairwise distinct; every stored key is probe-reachable;
and the injected hasher honours the `DimHasher` range contract. -/
structure WF (t : LinearHashTable) : Prop where
  dim_pos : 1 ≤ t.dim
  length_eq : t.table.length = 2 ^ t.dim
  len_eq : t.len = countVal t.table
  q_ge : countNonNil t.table ≤ t.q
  growSlack : 2 * countNonNil t.table ≤ t.table.length
  shrinkZero : t.len = 0 → t.table.length = 2
  shrinkPos : 1 ≤ t.len → t.table.length ≤ 8 * t.len
  keysNodup : t.iterKeys.Nodup
  probed : probedOk t
  contract : ∀ x d, 1 ≤ d → t.hasher x d < 2 ^ d

/-- The tables reachable from `initialize` by completed `add`/`remove`
calls, for a hasher satisfying the `DimHasher` range contract of §4.1. -/
inductive Reachable : LinearHashTable → Prop where
  | init (hasher : Nat → Nat → Nat)
      (hc : ∀ x d, 1 ≤ d → hasher x d < 2 ^ d) :
      Reachable (LinearHashTable.init hasher)
  | addR (t : LinearHashTable) (x : Nat) (t' : LinearHashTable)
      (r : Except Error Unit) (ht : Reachable t)
      (h : t.add x = some (t', r)) : Reachable t'
  | removeR (t : LinearHashTable) (x : Nat) (t' : LinearHashTable)
      (r : Except Error Unit) (ht : Reachable t)
      (h : t.remove x = some (t', r)) : Reachable t'

/-- A concrete hasher satisfying the `DimHasher` contract, used to build
explicit reachable tables for witnesses and counterexamples. -/
def h0 : Nat → Nat → Nat :=
  fun x d => x % 2 ^ d

/-- The table after `initialize(h0); add(0)`. -/
def w1 : LinearHashTable :=
  ⟨1, [Entry.Val 0, Entry.Nil], 1, 1, h0⟩

/-- The table after `initialize(h0); add(0); add(1)` (the second add grows
the table to dimension 2). -/
def w2 : LinearHashTable :=
  ⟨2, [Entry.Val 0, Entry.Val 1, Entry.Nil, Entry.Nil], 2, 2, h0⟩

/-- The table after `initialize(h0); add(0); add(1); remove(0)`: one live
key, one tombstone, and a stale `q = 2`. -/
def w3 : LinearHashTable :=
  ⟨2, [Entry.Del, Entry.Val 1, Entry.Nil, Entry.Nil], 2, 1, h0⟩

/-- The table after `initialize(h0); add(0); add(1); remove(0); add(4)`
(the last add triggers a resize, which drops the tombstone but leaves `q`
stale, then places key 4). -/
def w4 : LinearHashTable :=
  ⟨2, [Entry.Val 4, Entry.Val 1, Entry.Nil, Entry.Nil], 3, 2, h0⟩

/-- A second well-formed table holding the keys `{0, 1}` in a dimension-3
array with a tombstone: same live key set as `w2`, different capacity and
layout. -/
def w2b : LinearHashTable :=
  ⟨3, [Entry.Val 0, Entry.Val 1, Entry.Del, Entry.Nil, Entry.Nil, Entry.Nil,
       Entry.Nil, Entry.Nil], 3, 2, h0⟩

namespace Multiplicative

/-- Model of `Multiplicative::odd_random_range`: the drawn random word `r`
(from `rng.random_range(u64::MIN..u64::MAX / 2)`) is turned into the odd
multiplier `2 * r + 1`. -/
def odd_random_range (r : Nat) : Nat :=
  2 * r + 1

/-- Model of `DimHasher::hash` for `Multiplicative`:
`self.z.overflowing_mul(x).0 >> (u64::BITS - dim)` — the wrapping `u64`
product is `z * x % 2^64`, then the top `dim` bits are kept. -/
def mhash (z x dim : Nat) : Nat :=
  (z * x % 2 ^ 64) >>> (64 - dim)

end Multiplicative

/-! ### Basic counting and membership lemmas -/

open LinearHashTable

lemma length_new_table (d : Nat) : (new_table d).length = 2 ^ d := by
  simp [new_table]

lemma countVal_new_table (d : Nat) : countVal (new_table d) = 0 := by
  simp [countVal, new_table, List.countP_replicate, Entry.isVal]

lemma countNonNil_new_table (d : Nat) : countNonNil (new_table d) = 0 := by
  simp [countNonNil, new_table, List.countP_replicate, Entry.isNil]

lemma filterMap_keyOf_new_table (d : Nat) :
    (new_table d).filterMap keyOf = [] := by
  simp [new_table, List.filterMap_replicate, keyOf]

@[simp] lemma countVal_nil_list : countVal [] = 0 := rfl

@[simp] lemma countNonNil_nil_list : countNonNil [] = 0 := rfl

@[simp] lemma countVal_cons_val (x : Nat) (l : List Entry) :
    countVal (Entry.Val x :: l) = countVal l + 1 := by
  simp [countVal, List.countP_cons, Entry.isVal]

@[simp] lemma countVal_cons_nil (l : List Entry) :
    countVal (Entry.Nil :: l) = countVal l := by
  simp [countVal, List.countP_cons, Entry.isVal]

@[simp] lemma countVal_cons_del (l : List Entry) :
    countVal (Entry.Del :: l) = countVal l := by
  simp [countVal, List.countP_cons, Entry.isVal]

@[simp] lemma countNonNil_cons_val (x : Nat) (l : List Entry) :
    countNonNil (Entry.Val x :: l) = countNonNil l + 1 := by
  simp [countNonNil, List.countP_cons, Entry.isNil]

@[simp] lemma countNonNil_cons_nil (l : List Entry) :
    countNonNil (Entry.Nil :: l) = countNonNil l := by
  simp [countNonNil, List.countP_cons, Entry.isNil]

@[simp] lemma countNonNil_cons_del (l : List Entry) :
    countNonNil (Entry.Del :: l) = countNonNil l + 1 := by
  simp [countNonNil, List.countP_cons, Entry.isNil]

@[simp] lemma filterMap_keyOf_cons_val (x : Nat) (l : List Entry) :
    (Entry.Val x :: l).filterMap keyOf = x :: l.filterMap keyOf := by
  simp [List.filterMap_cons, keyOf]

@[simp] lemma filterMap_keyOf_cons_nil (l : List Entry) :
    (Entry.Nil :: l).filterMap keyOf = l.filterMap keyOf := by
  simp [List.filterMap_cons, keyOf]

@[simp] lemma filterMap_keyOf_cons_del (l : List Entry) :
    (Entry.Del :: l).filterMap keyOf = l.filterMap keyOf := by
  simp [List.filterMap_cons, keyOf]

lemma countVal_le_countNonNil (l : List Entry) : countVal l ≤ countNonNil l := by
  induction l with
  | nil => simp
  | cons a tl ih => cases a <;> simp <;> omega

lemma countNonNil_le_length (l : List Entry) : countNonNil l ≤ l.length := by
  induction l with
  | nil => simp
  | cons a tl ih => cases a <;> simp <;> omega

lemma length_iterKeys (t : LinearHashTable) :
    t.iterKeys.length = countVal t.table := by
  rw [iterKeys, countVal, List.length_filterMap_eq_countP]
  congr 1
  funext e
  cases e <;> simp [keyOf, Entry.isVal]

lemma mem_filterMap_keyOf {l : List Entry} {x : Nat} :
    x ∈ l.filterMap keyOf ↔ ∃ p : Nat, l[p]? = some (Entry.Val x) := by
  rw [List.mem_filterMap]
  constructor
  · rintro ⟨e, he, hk⟩
    cases e <;> simp [keyOf] at hk
    subst hk
    exact List.mem_iff_getElem?.1 he
  · rintro ⟨p, hp⟩
    exact ⟨Entry.Val x, List.getElem?_mem hp, rfl⟩

lemma mem_iterKeys {t : LinearHashTable} {x : Nat} :
    x ∈ t.iterKeys ↔ ∃ p : Nat, t.table[p]? = some (Entry.Val x) :=
  mem_filterMap_keyOf

lemma nodup_keyOf_tail {a : Entry} {l : List Entry}
    (h : ((a :: l).filterMap keyOf).Nodup) : (l.filterMap keyOf).Nodup := by
  cases a <;> simp_all [keyOf, List.filterMap_cons]

lemma val_slot_unique {l : List Entry} (hnd : (l.filterMap keyOf).Nodup)
    {p1 p2 x : Nat} (h1 : l[p1]? = some (Entry.Val x))
    (h2 : l[p2]? = some (Entry.Val x)) : p1 = p2 := by
  induction l generalizing p1 p2 with
  | nil => simp at h1
  | cons a tl ih =>
    match p1, p2 with
    | 0, 0 => rfl
    | 0, p2 + 1 =>
      simp at h1
      subst h1
      simp only [List.filterMap_cons, keyOf] at hnd
      rw [List.nodup_cons] at hnd
      exact absurd (mem_filterMap_keyOf.2 ⟨p2, by simpa using h2⟩) hnd.1
    | p1 + 1, 0 =>
      simp at h2
      subst h2
      simp only [List.filterMap_cons, keyOf] at hnd
      rw [List.nodup_cons] at hnd
      exact absurd (mem_filterMap_keyOf.2 ⟨p1, by simpa using h1⟩) hnd.1
    | p1 + 1, p2 + 1 =>
      have := ih (nodup_keyOf_tail hnd) (by simpa using h1) (by simpa using h2)
      omega

lemma nil_slot_exists {l : List Entry} (h : countNonNil l < l.length) :
    ∃ p, p < l.length ∧ l[p]? = some Entry.Nil := by
  have hex : ∃ e ∈ l, ¬ (!e.isNil) = true := by
    by_contra hall
    push_neg at hall
    unfold countNonNil at h
    rw [List.countP_eq_length.2 hall] at h
    exact lt_irrefl _ h
  obtain ⟨e, he, hne⟩ := hex
  have : e = Entry.Nil := by cases e <;> simp_all [Entry.isNil]
  subst this
  obtain ⟨p, hp⟩ := List.mem_iff_getElem?.1 he
  exact ⟨p, (List.getElem?_eq_some_iff.1 hp).1, hp⟩

lemma del_slot_lt_countNonNil {l : List Entry} {p : Nat}
    (h : l[p]? = some Entry.Del) : countVal l + 1 ≤ countNonNil l := by
  induction l generalizing p with
  | nil => simp at h
  | cons a tl ih =>
    match p with
    | 0 =>
      simp at h
      subst h
      have h2 := countVal_le_countNonNil tl
      simp
      omega
    | p + 1 =>
      have := ih (p := p) (by simpa using h)
      cases a <;> simp <;> omega

/-! ### Probe-position arithmetic -/

lemma probePos_lt (t : LinearHashTable) (x j : Nat)
    (hn : 0 < t.table.length) : probePos t x j < t.table.length :=
  Nat.mod_lt _ hn

lemma probePos_zero (t : LinearHashTable) (x : Nat)
    (h : t.hash x < t.table.length) : probePos t x 0 = t.hash x := by
  simp [probePos, Nat.mod_eq_of_lt h]

lemma loop_index_probePos (t : LinearHashTable) (x j : Nat) :
    t.loop_index (probePos t x j + 1) = probePos t x (j + 1) := by
  simp [loop_index, probePos, Nat.mod_add_mod, Nat.add_assoc]

lemma probePos_inj (t : LinearHashTable) (x : Nat) {j k : Nat}
    (hj : j < t.table.length) (hk : k < t.table.length)
    (h : probePos t x j = probePos t x k) : j = k := by
  unfold probePos at h
  have h2 : j % t.table.length = k % t.table.length :=
    Nat.ModEq.add_left_cancel' (t.hash x) h
  rwa [Nat.mod_eq_of_lt hj, Nat.mod_eq_of_lt hk] at h2

lemma probePos_surj (t : LinearHashTable) (x : Nat) {p : Nat}
    (hn : 0 < t.table.length) (hp : p < t.table.length) :
    ∃ j, j < t.table.length ∧ probePos t x j = p := by
  set n := t.table.length with hn_def
  set a := t.hash x with ha_def
  refine ⟨(p + n - a % n) % n, Nat.mod_lt _ hn, ?_⟩
  have ham : a % n ≤ n := le_of_lt (Nat.mod_lt _ hn)
  unfold probePos
  rw [← hn_def, ← ha_def, Nat.add_mod_mod]
  have h1 : a + (p + n - a % n) = p + (a - a % n) + n := by
    have := Nat.mod_le a n
    omega
  rw [h1, Nat.add_mod_right]
  have h2 : a - a % n = n * (a / n) := by
    have := Nat.div_add_mod a n
    omega
  rw [h2, Nat.add_mul_mod_self_left, Nat.mod_eq_of_lt hp]

lemma getElem?_total {l : List Entry} {p : Nat} (hp : p < l.length) :
    ∃ e, l[p]? = some e :=
  ⟨l.get ⟨p, hp⟩, by simp⟩

/-! ### Running the probe loop of `contains` -/

lemma containsLoop_step_val {t : LinearHashTable} {x fuel j y : Nat}
    (hy : y ≠ x) (h : t.table[probePos t x j]? = some (Entry.Val y)) :
    containsLoop t x (fuel + 1) (probePos t x j) =
      containsLoop t x fuel (probePos t x (j + 1)) := by
  conv_lhs => unfold containsLoop
  rw [h]
  simp [hy, loop_index_probePos]

lemma containsLoop_step_del {t : LinearHashTable} {x fuel j : Nat}
    (h : t.table[probePos t x j]? = some Entry.Del) :
    containsLoop t x (fuel + 1) (probePos t x j) =
      containsLoop t x fuel (probePos t x (j + 1)) := by
  conv_lhs => unfold containsLoop
  rw [h]
  simp [loop_index_probePos]

lemma containsLoop_shift (t : LinearHashTable) (x : Nat) (k : Nat) :
    ∀ fuel, k ≤ fuel → (∀ j, j < k → contStep t x j) →
      containsLoop t x fuel (probePos t x 0) =
        containsLoop t x (fuel - k) (probePos t x k) := by
  induction k with
  | zero => intro fuel _ _; rfl
  | succ k ih =>
    intro fuel hk hpath
    rw [ih fuel (by omega) (fun j hj => hpath j (by omega))]
    have hfk : fuel - k = (fuel - (k + 1)) + 1 := by omega
    rw [hfk]
    rcases hpath k (by omega) with ⟨y, hy, hval⟩ | hdel
    · exact containsLoop_step_val hy hval
    · exact containsLoop_step_del hdel

lemma contains_of_path_val {t : LinearHashTable} {x k : Nat}
    (hi0 : t.hash x < t.table.length) (hk : k < t.table.length)
    (hpath : ∀ j, j < k → contStep t x j)
    (hval : t.table[probePos t x k]? = some (Entry.Val x)) :
    t.contains x = some true := by
  unfold contains
  rw [← probePos_zero t x hi0,
    containsLoop_shift t x k t.table.length (le_of_lt hk) hpath]
  have h1 : t.table.length - k = (t.table.length - k - 1) + 1 := by omega
  rw [h1]
  unfold containsLoop
  rw [hval]
  simp

lemma contains_of_path_nil {t : LinearHashTable} {x k : Nat}
    (hi0 : t.hash x < t.table.length) (hk : k < t.table.length)
    (hpath : ∀ j, j < k → contStep t x j)
    (hnil : t.table[probePos t x k]? = some Entry.Nil) :
    t.contains x = some false := by
  unfold contains
  rw [← probePos_zero t x hi0,
    containsLoop_shift t x k t.table.length (le_of_lt hk) hpath]
  have h1 : t.table.length - k = (t.table.length - k - 1) + 1 := by omega
  rw [h1]
  unfold containsLoop
  rw [hnil]

/-! ### Totality and correctness of `contains` -/

lemma probeFree_of_probedOk {t : LinearHashTable} (hprob : probedOk t)
    {p x : Nat} (hp : p < t.table.length)
    (h : t.table[p]? = some (Entry.Val x)) : probeFree t x p := by
  have hs := hprob p hp
  unfold slotOk at hs
  rw [h] at hs
  exact hs

lemma contains_eq_of_mem {t : LinearHashTable} {x : Nat}
    (hi0 : t.hash x < t.table.length) (hprob : probedOk t)
    (hnd : t.iterKeys.Nodup) (hx : x ∈ t.iterKeys) :
    t.contains x = some true := by
  obtain ⟨p, hp⟩ := mem_iterKeys.1 hx
  have hplt : p < t.table.length := (List.getElem?_eq_some_iff.1 hp).1
  have hn : 0 < t.table.length := by omega
  obtain ⟨k, hk, hpk, hpath⟩ := probeFree_of_probedOk hprob hplt hp
  refine contains_of_path_val hi0 hk (fun j hj => ?_) (by rw [hpk]; exact hp)
  obtain ⟨e, he⟩ := getElem?_total (probePos_lt t x j hn)
  match e with
  | Entry.Nil => exact absurd he (hpath j hj)
  | Entry.Del => exact Or.inr he
  | Entry.Val y =>
    refine Or.inl ⟨y, fun hyx => ?_, he⟩
    rw [hyx] at he
    have hj_eq : probePos t x j = p := val_slot_unique hnd he hp
    have hjk : j = k := probePos_inj t x (by omega) hk (by rw [hj_eq, hpk])
    omega

lemma contains_eq_of_not_mem {t : LinearHashTable} {x : Nat}
    (hi0 : t.hash x < t.table.length)
    (hnil : countNonNil t.table < t.table.length) (hx : x ∉ t.iterKeys) :
    t.contains x = some false := by
  have hn : 0 < t.table.length := by omega
  obtain ⟨pn, hpn, hpnil⟩ := nil_slot_exists hnil
  obtain ⟨jn, hjn, hjp⟩ := probePos_surj t x hn hpn
  have hPex : ∃ j, t.table[probePos t x j]? = some Entry.Nil :=
    ⟨jn, by rw [hjp]; exact hpnil⟩
  classical
  set k := Nat.find hPex with hk_def
  have hkP : t.table[probePos t x k]? = some Entry.Nil := Nat.find_spec hPex
  have hkle : k ≤ jn := Nat.find_min' hPex (by rw [hjp]; exact hpnil)
  refine contains_of_path_nil hi0 (by omega) (fun j hj => ?_) hkP
  have hjnot := Nat.find_min hPex hj
  obtain ⟨e, he⟩ := getElem?_total (probePos_lt t x j hn)
  match e with
  | Entry.Nil => exact absurd he hjnot
  | Entry.Del => exact Or.inr he
  | Entry.Val y =>
    refine Or.inl ⟨y, fun hyx => ?_, he⟩
    rw [hyx] at he
    exact hx (mem_iterKeys.2 ⟨probePos t x j, he⟩)

/-- Under the representation invariant, `contains` always terminates and
decides membership in the live key set. -/
lemma contains_eq_decide {t : LinearHashTable} (hwf : WF t) (x : Nat) :
    t.contains x = some (decide (x ∈ t.iterKeys)) := by
  have hn2 : 2 ≤ t.table.length := by
    rw [hwf.length_eq]
    calc 2 = 2 ^ 1 := rfl
    _ ≤ 2 ^ t.dim := Nat.pow_le_pow_right (by omega) hwf.dim_pos
  have hi0 : t.hash x < t.table.length := by
    rw [hwf.length_eq]
    exact hwf.contract x t.dim hwf.dim_pos
  have hnil : countNonNil t.table < t.table.length := by
    have := hwf.growSlack
    omega
  by_cases hx : x ∈ t.iterKeys
  · rw [contains_eq_of_mem hi0 hwf.probed hwf.keysNodup hx]
    simp [hx]
  · rw [contains_eq_of_not_mem hi0 hnil hx]
    simp [hx]

/-! ### Running the probe loop of `insert` -/

lemma insertLoop_step {t : LinearHashTable} {fuel j y : Nat} (x : Nat)
    (h : t.table[probePos t x j]? = some (Entry.Val y)) :
    insertLoop t (fuel + 1) (probePos t x j) =
      insertLoop t fuel (probePos t x (j + 1)) := by
  conv_lhs => unfold insertLoop
  rw [h]
  simp [loop_index_probePos]

lemma insertLoop_shift (t : LinearHashTable) (x k : Nat) :
    ∀ fuel, k ≤ fuel →
      (∀ j, j < k → ∃ y, t.table[probePos t x j]? = some (Entry.Val y)) →
      insertLoop t fuel (probePos t x 0) =
        insertLoop t (fuel - k) (probePos t x k) := by
  induction k with
  | zero => intro fuel _ _; rfl
  | succ k ih =>
    intro fuel hk hpath
    rw [ih fuel (by omega) (fun j hj => hpath j (by omega))]
    have hfk : fuel - k = (fuel - (k + 1)) + 1 := by omega
    rw [hfk]
    obtain ⟨y, hy⟩ := hpath k (by omega)
    exact insertLoop_step x hy

lemma insert_eq_set {t : LinearHashTable} {x k : Nat} {e : Entry}
    (hi0 : t.hash x < t.table.length) (hk : k < t.table.length)
    (hpath : ∀ j, j < k → ∃ y, t.table[probePos t x j]? = some (Entry.Val y))
    (he : t.table[probePos t x k]? = some e) (hev : e.isVal = false) :
    t.insert x =
      some (e, { t with table := t.table.set (probePos t x k) (Entry.Val x) }) := by
  unfold LinearHashTable.insert
  have hloop : insertLoop t t.table.length (t.hash x) =
      some (probePos t x k, e) := by
    rw [← probePos_zero t x hi0,
      insertLoop_shift t x k t.table.length (le_of_lt hk) hpath]
    have h1 : t.table.length - k = (t.table.length - k - 1) + 1 := by omega
    rw [h1]
    conv_lhs => unfold insertLoop
    rw [he]
    cases e <;> simp_all [Entry.isVal]
  rw [hloop]

lemma insert_spec (t : LinearHashTable) (x : Nat)
    (hi0 : t.hash x < t.table.length)
    (hroom : countNonNil t.table < t.table.length) :
    ∃ k e, k < t.table.length ∧
      (∀ j, j < k → ∃ y, t.table[probePos t x j]? = some (Entry.Val y)) ∧
      t.table[probePos t x k]? = some e ∧ e.isVal = false ∧
      t.insert x =
        some (e, { t with table := t.table.set (probePos t x k) (Entry.Val x) }) := by
  have hn : 0 < t.table.length := by omega
  obtain ⟨pn, hpn, hpnil⟩ := nil_slot_exists hroom
  obtain ⟨jn, hjn, hjp⟩ := probePos_surj t x hn hpn
  have hPex : ∃ j, (t.table[probePos t x j]?).map Entry.isVal = some false :=
    ⟨jn, by rw [hjp, hpnil]; rfl⟩
  classical
  set k := Nat.find hPex with hk_def
  have hkP := Nat.find_spec hPex
  have hkle : k ≤ jn := Nat.find_min' hPex (by rw [hjp, hpnil]; rfl)
  obtain ⟨e, he, hev⟩ := Option.map_eq_some'.1 hkP
  have hpath : ∀ j, j < k →
      ∃ y, t.table[probePos t x j]? = some (Entry.Val y) := by
    intro j hj
    have hjnot := Nat.find_min hPex hj
    obtain ⟨e', he'⟩ := getElem?_total (probePos_lt t x j hn)
    match e' with
    | Entry.Val y => exact ⟨y, he'⟩
    | Entry.Nil =>
      rw [he'] at hjnot
      simp [Entry.isVal] at hjnot
    | Entry.Del =>
      rw [he'] at hjnot
      simp [Entry.isVal] at hjnot
  exact ⟨k, e, by omega, hpath, he, hev,
    insert_eq_set hi0 (by omega) hpath he hev⟩

/-! ### Effect of `List.set` on counters and keys -/

lemma countVal_set_val {l : List Entry} {p x : Nat} {e : Entry}
    (he : l[p]? = some e) (hev : e.isVal = false) :
    countVal (l.set p (Entry.Val x)) = countVal l + 1 := by
  induction l generalizing p with
  | nil => simp at he
  | cons a tl ih =>
    match p with
    | 0 =>
      simp at he
      subst he
      cases a <;> simp_all [Entry.isVal]
    | p + 1 =>
      have := ih (p := p) (by simpa using he)
      cases a <;> simp_all

lemma countNonNil_set_val_of_nil {l : List Entry} {p x : Nat}
    (he : l[p]? = some Entry.Nil) :
    countNonNil (l.set p (Entry.Val x)) = countNonNil l + 1 := by
  induction l generalizing p with
  | nil => simp at he
  | cons a tl ih =>
    match p with
    | 0 =>
      simp at he
      subst he
      simp
    | p + 1 =>
      have := ih (p := p) (by simpa using he)
      cases a <;> simp_all

lemma countNonNil_set_val_of_del {l : List Entry} {p x : Nat}
    (he : l[p]? = some Entry.Del) :
    countNonNil (l.set p (Entry.Val x)) = countNonNil l := by
  induction l generalizing p with
  | nil => simp at he
  | cons a tl ih =>
    match p with
    | 0 =>
      simp at he
      subst he
      simp
    | p + 1 =>
      have := ih (p := p) (by simpa using he)
      cases a <;> simp_all

lemma keys_set_val_perm {l : List Entry} {p x : Nat} {e : Entry}
    (he : l[p]? = some e) (hev : e.isVal = false) :
    ((l.set p (Entry.Val x)).filterMap keyOf).Perm (x :: l.filterMap keyOf) := by
  induction l generalizing p with
  | nil => simp at he
  | cons a tl ih =>
    match p with
    | 0 =>
      simp at he
      subst he
      cases a <;> simp_all [Entry.isVal]
    | p + 1 =>
      have hperm := ih (p := p) (by simpa using he)
      match a with
      | Entry.Val y =>
        simp only [List.set_cons_succ, filterMap_keyOf_cons_val]
        exact (hperm.cons y).trans (List.Perm.swap x y _)
      | Entry.Nil => simpa using hperm
      | Entry.Del => simpa using hperm

lemma countVal_set_del {l : List Entry} {p x : Nat}
    (he : l[p]? = some (Entry.Val x)) :
    countVal (l.set p Entry.Del) + 1 = countVal l := by
  induction l generalizing p with
  | nil => simp at he
  | cons a tl ih =>
    match p with
    | 0 =>
      simp at he
      subst he
      simp
    | p + 1 =>
      have := ih (p := p) (by simpa using he)
      cases a <;> simp_all

lemma countNonNil_set_del {l : List Entry} {p x : Nat}
    (he : l[p]? = some (Entry.Val x)) :
    countNonNil (l.set p Entry.Del) = countNonNil l := by
  induction l generalizing p with
  | nil => simp at he
  | cons a tl ih =>
    match p with
    | 0 =>
      simp at he
      subst he
      simp
    | p + 1 =>
      have := ih (p := p) (by simpa using he)
      cases a <;> simp_all

lemma keys_set_del_perm {l : List Entry} {p x : Nat}
    (he : l[p]? = some (Entry.Val x)) :
    (l.filterMap keyOf).Perm (x :: (l.set p Entry.Del).filterMap keyOf) := by
  induction l generalizing p with
  | nil => simp at he
  | cons a tl ih =>
    match p with
    | 0 =>
      simp at he
      subst he
      simp only [List.set_cons_zero, filterMap_keyOf_cons_val,
        filterMap_keyOf_cons_del]
      exact List.Perm.refl _
    | p + 1 =>
      have hperm := ih (p := p) (by simpa using he)
      match a with
      | Entry.Val y =>
        simp only [List.set_cons_succ, filterMap_keyOf_cons_val]
        exact (hperm.cons y).trans (List.Perm.swap x y _)
      | Entry.Nil => simpa using hperm
      | Entry.Del => simpa using hperm

/-! ### Preservation of the probe invariant -/

lemma probePos_set (t : LinearHashTable) (i : Nat) (a : Entry) (z j : Nat) :
    probePos { t with table := t.table.set i a } z j = probePos t z j := by
  unfold probePos LinearHashTable.hash
  simp

lemma probeFree_congr {t t' : LinearHashTable}
    (hhash : ∀ z, t'.hash z = t.hash z)
    (hlen : t'.table.length = t.table.length)
    (hent : ∀ i, i < t.table.length →
      t.table[i]? ≠ some Entry.Nil → t'.table[i]? ≠ some Entry.Nil)
    {z p : Nat} (h : probeFree t z p) : probeFree t' z p := by
  obtain ⟨k, hk, hpos, hpath⟩ := h
  have hpp : ∀ j, probePos t' z j = probePos t z j := fun j => by
    simp [probePos, hhash, hlen]
  refine ⟨k, by omega, by rw [hpp]; exact hpos, fun j hj => ?_⟩
  rw [hpp]
  exact hent _ (probePos_lt t z j (by omega)) (hpath j hj)

lemma probedOk_set_val {t : LinearHashTable} {x k : Nat}
    (hk : k < t.table.length)
    (hpath : ∀ j, j < k → ∃ y, t.table[probePos t x j]? = some (Entry.Val y))
    (hprob : probedOk t) :
    probedOk { t with table := t.table.set (probePos t x k) (Entry.Val x) } := by
  have hn : 0 < t.table.length := by omega
  set t' := { t with table := t.table.set (probePos t x k) (Entry.Val x) }
    with ht'
  have hp'lt : probePos t x k < t.table.length := probePos_lt t x k hn
  have hlen : t'.table.length = t.table.length := by
    rw [ht']
    exact List.length_set t.table _ _
  have hpp : ∀ z j, probePos t' z j = probePos t z j := fun z j =>
    probePos_set t _ _ z j
  have hval_at : t'.table[probePos t x k]? = some (Entry.Val x) := by
    rw [ht']
    exact List.getElem?_set_self (by omega)
  have hent : ∀ i, i < t.table.length →
      t.table[i]? ≠ some Entry.Nil → t'.table[i]? ≠ some Entry.Nil := by
    intro i hi hne
    by_cases hip : i = probePos t x k
    · rw [hip, hval_at]; simp
    · rw [ht']
      rw [List.getElem?_set_ne (fun hc => hip hc.symm)]
      exact hne
  intro p hp
  unfold slotOk
  split
  case _ z heq =>
    by_cases hpp' : p = probePos t x k
    · subst hpp'
      rw [hval_at] at heq
      have hzx : z = x := by
        simp at heq
        omega
      rw [hzx]
      refine ⟨k, by omega, by rw [hpp], fun j hj => ?_⟩
      rw [hpp]
      have hne : probePos t x j ≠ probePos t x k := fun hc =>
        absurd (probePos_inj t x (by omega) hk hc) (by omega)
      rw [ht', List.getElem?_set_ne (fun hc => hne hc.symm)]
      obtain ⟨y, hy⟩ := hpath j hj
      rw [hy]
      simp
    · have heq' : t.table[p]? = some (Entry.Val z) := by
        rw [ht'] at heq
        rwa [List.getElem?_set_ne (fun hc => hpp' hc.symm)] at heq
      have hpfree : probeFree t z p :=
        probeFree_of_probedOk hprob (by omega) heq'
      have hhash : ∀ w, t'.hash w = t.hash w := by
        intro w
        rw [ht']
        rfl
      exact probeFree_congr hhash hlen hent hpfree
  case _ => trivial

lemma probedOk_set_del {t : LinearHashTable} {p' x : Nat}
    (hp' : t.table[p']? = some (Entry.Val x)) (hprob : probedOk t) :
    probedOk { t with table := t.table.set p' Entry.Del } := by
  have hp'lt : p' < t.table.length := (List.getElem?_eq_some_iff.1 hp').1
  set t' := { t with table := t.table.set p' Entry.Del } with ht'
  have hlen : t'.table.length = t.table.length := by
    rw [ht']
    exact List.length_set t.table _ _
  have hdel_at : t'.table[p']? = some Entry.Del := by
    rw [ht']
    exact List.getElem?_set_self hp'lt
  have hent : ∀ i, i < t.table.length →
      t.table[i]? ≠ some Entry.Nil → t'.table[i]? ≠ some Entry.Nil := by
    intro i hi hne
    by_cases hip : i = p'
    · rw [hip, hdel_at]; simp
    · rw [ht', List.getElem?_set_ne (fun hc => hip hc.symm)]
      exact hne
  intro p hp
  unfold slotOk
  split
  case _ z heq =>
    by_cases hpp' : p = p'
    · rw [hpp', hdel_at] at heq
      simp at heq
    · have heq' : t.table[p]? = some (Entry.Val z) := by
        rw [ht'] at heq
        rwa [List.getElem?_set_ne (fun hc => hpp' hc.symm)] at heq
      have hpfree : probeFree t z p :=
        probeFree_of_probedOk hprob (by omega) heq'
      have hhash : ∀ w, t'.hash w = t.hash w := by
        intro w
        rw [ht']
        rfl
      exact probeFree_congr hhash hlen hent hpfree
  case _ => trivial

/-! ### The `new_dim` computation of `resize` -/

lemma resizeDimLoop_spec_aux (len : Nat) :
    ∀ m d, 3 * len - 2 ^ d ≤ m →
      d ≤ resizeDimLoop len d ∧ 3 * len ≤ 2 ^ resizeDimLoop len d ∧
        ∀ e, d ≤ e → 3 * len ≤ 2 ^ e → resizeDimLoop len d ≤ e := by
  intro m
  induction m with
  | zero =>
    intro d hd
    have h : ¬ 2 ^ d < 3 * len := by omega
    rw [resizeDimLoop, if_neg h]
    exact ⟨le_refl d, by omega, fun e he1 _ => he1⟩
  | succ m ih =>
    intro d hd
    by_cases h : 2 ^ d < 3 * len
    · rw [resizeDimLoop, if_pos h]
      have hp : 2 ^ (d + 1) = 2 * 2 ^ d := by
        rw [Nat.pow_succ]
        ring
      have hpos : 1 ≤ 2 ^ d := Nat.one_le_two_pow
      obtain ⟨ih1, ih2, ih3⟩ := ih (d + 1) (by omega)
      refine ⟨by omega, ih2, fun e he1 he2 => ?_⟩
      have he3 : d + 1 ≤ e := by
        rcases Nat.eq_or_lt_of_le he1 with rfl | h2
        · omega
        · omega
      exact ih3 e he3 he2
    · rw [resizeDimLoop, if_neg h]
      exact ⟨le_refl d, by omega, fun e he1 _ => he1⟩

lemma resizeDimLoop_spec (len d : Nat) :
    d ≤ resizeDimLoop len d ∧ 3 * len ≤ 2 ^ resizeDimLoop len d ∧
      ∀ e, d ≤ e → 3 * len ≤ 2 ^ e → resizeDimLoop len d ≤ e :=
  resizeDimLoop_spec_aux len (3 * len) d (Nat.sub_le _ _)

lemma resizeDim_pos (len : Nat) : 1 ≤ resizeDimLoop len 1 :=
  (resizeDimLoop_spec len 1).1

lemma resizeDim_ge (len : Nat) : 3 * len ≤ 2 ^ resizeDimLoop len 1 :=
  (resizeDimLoop_spec len 1).2.1

lemma resizeDim_min (len e : Nat) (he : 1 ≤ e) (h2 : 3 * len ≤ 2 ^ e) :
    resizeDimLoop len 1 ≤ e :=
  (resizeDimLoop_spec len 1).2.2 e he h2

lemma resizeDimLoop_zero : resizeDimLoop 0 1 = 1 := by
  have h1 := resizeDim_pos 0
  have h2 := resizeDim_min 0 1 (by omega) (by simp)
  omega

lemma resizeDim_upper (len : Nat) (hlen : 1 ≤ len) :
    2 ^ resizeDimLoop len 1 ≤ 8 * len := by
  set d := resizeDimLoop len 1 with hd
  have hd1 : 1 ≤ d := resizeDim_pos len
  rcases Nat.eq_or_lt_of_le hd1 with h1 | h2
  · rw [← h1]
    omega
  · have hnot : ¬ (3 * len ≤ 2 ^ (d - 1)) := fun hc =>
      absurd (resizeDim_min len (d - 1) (by omega) hc) (by omega)
    have hdd : 2 ^ d = 2 * 2 ^ (d - 1) := by
      have h3 : d = (d - 1) + 1 := by omega
      conv_lhs => rw [h3, Nat.pow_succ]
      ring
    omega

lemma resizeDim_grow (v : Nat) : 2 * (v + 1) ≤ 2 ^ resizeDimLoop v 1 := by
  match v with
  | 0 =>
    rw [resizeDimLoop_zero]
    norm_num
  | 1 =>
    have h1 : resizeDimLoop 1 1 ≤ 2 := resizeDim_min 1 2 (by omega) (by norm_num)
    have h2 : 3 ≤ 2 ^ resizeDimLoop 1 1 := by simpa using resizeDim_ge 1
    have h3 : 2 ≤ resizeDimLoop 1 1 := by
      by_contra hc
      push_neg at hc
      interval_cases h : resizeDimLoop 1 1 <;> simp_all
    have h4 : resizeDimLoop 1 1 = 2 := by omega
    rw [h4]
    norm_num
  | v + 2 =>
    have h1 := resizeDim_ge (v + 2)
    omega

/-! ### Field preservation through `insert` and `reinsertAll` -/

lemma insert_fields {t : LinearHashTable} {x : Nat} {e : Entry}
    {t2 : LinearHashTable} (h : t.insert x = some (e, t2)) :
    t2.dim = t.dim ∧ t2.q = t.q ∧ t2.len = t.len ∧ t2.hasher = t.hasher ∧
      t2.table.length = t.table.length := by
  unfold LinearHashTable.insert at h
  cases hl : insertLoop t t.table.length (t.hash x) with
  | none => rw [hl] at h; simp at h
  | some pe =>
    obtain ⟨i, e'⟩ := pe
    rw [hl] at h
    simp only [Option.some.injEq, Prod.mk.injEq] at h
    obtain ⟨-, ht2⟩ := h
    rw [← ht2]
    simp [List.length_set]

lemma reinsertAll_fields (old : List Entry) :
    ∀ s s' : LinearHashTable, reinsertAll old s = some s' →
      s'.dim = s.dim ∧ s'.q = s.q ∧ s'.len = s.len ∧ s'.hasher = s.hasher ∧
        s'.table.length = s.table.length := by
  induction old with
  | nil =>
    intro s s' h
    simp only [reinsertAll, Option.some.injEq] at h
    rw [← h]
    exact ⟨rfl, rfl, rfl, rfl, rfl⟩
  | cons a rest ih =>
    intro s s' h
    match a with
    | Entry.Nil => exact ih s s' h
    | Entry.Del => exact ih s s' h
    | Entry.Val y =>
      rw [show reinsertAll (Entry.Val y :: rest) s =
          (match s.insert y with
           | some (_, t') => reinsertAll rest t'
           | none => none) from rfl] at h
      cases hi : s.insert y with
      | none => rw [hi] at h; simp at h
      | some pe =>
        obtain ⟨e, t2⟩ := pe
        rw [hi] at h
        obtain ⟨a1, a2, a3, a4, a5⟩ := ih t2 s' h
        obtain ⟨b1, b2, b3, b4, b5⟩ := insert_fields hi
        exact ⟨a1.trans b1, a2.trans b2, a3.trans b3, a4.trans b4,
          a5.trans b5⟩

/-! ### The rebuild performed by `resize` -/

lemma reinsertAll_spec (old : List Entry) :
    ∀ s : LinearHashTable,
      1 ≤ s.dim → s.table.length = 2 ^ s.dim →
      (∀ z d, 1 ≤ d → s.hasher z d < 2 ^ d) →
      countNonNil s.table = countVal s.table →
      countVal s.table + countVal old ≤ s.table.length →
      (s.iterKeys ++ old.filterMap keyOf).Nodup →
      probedOk s →
      ∃ s', reinsertAll old s = some s' ∧
        countVal s'.table = countVal s.table + countVal old ∧
        countNonNil s'.table = countVal s'.table ∧
        s'.iterKeys.Perm (s.iterKeys ++ old.filterMap keyOf) ∧
        probedOk s' := by
  induction old with
  | nil =>
    intro s h1 h2 h3 h4 h5 h6 h7
    refine ⟨s, rfl, by simp, h4, ?_, h7⟩
    rw [List.filterMap_nil, List.append_nil]
  | cons a rest ih =>
    intro s h1 h2 h3 h4 h5 h6 h7
    match a with
    | Entry.Nil =>
      have h5' : countVal s.table + countVal rest ≤ s.table.length := by
        simp at h5
        omega
      have h6' : (s.iterKeys ++ rest.filterMap keyOf).Nodup := by
        simpa using h6
      obtain ⟨s', hrun, hcv, hcn, hperm, hprob⟩ :=
        ih s h1 h2 h3 h4 h5' h6' h7
      refine ⟨s', hrun, by simpa using hcv, hcn, ?_, hprob⟩
      simpa using hperm
    | Entry.Del =>
      have h5' : countVal s.table + countVal rest ≤ s.table.length := by
        simp at h5
        omega
      have h6' : (s.iterKeys ++ rest.filterMap keyOf).Nodup := by
        simpa using h6
      obtain ⟨s', hrun, hcv, hcn, hperm, hprob⟩ :=
        ih s h1 h2 h3 h4 h5' h6' h7
      refine ⟨s', hrun, by simpa using hcv, hcn, ?_, hprob⟩
      simpa using hperm
    | Entry.Val y =>
      have hn : 0 < s.table.length := by
        rw [h2]
        exact Nat.pos_pow_of_pos _ (by omega)
      have hi0 : s.hash y < s.table.length := by
        rw [h2]
        exact h3 y s.dim h1
      have hcount : countVal (Entry.Val y :: rest) = countVal rest + 1 := by
        simp
      have hroom : countNonNil s.table < s.table.length := by
        rw [h4]
        omega
      obtain ⟨k, e, hk, hpath, he, hev, hins⟩ := insert_spec s y hi0 hroom
      set s2 := { s with table := s.table.set (probePos s y k) (Entry.Val y) }
        with hs2
      have henil : e = Entry.Nil := by
        match e with
        | Entry.Nil => rfl
        | Entry.Del =>
          have := del_slot_lt_countNonNil he
          omega
        | Entry.Val z => simp [Entry.isVal] at hev
      have hlen2 : s2.table.length = s.table.length := by
        rw [hs2]
        exact List.length_set s.table _ _
      have hcv2 : countVal s2.table = countVal s.table + 1 :=
        countVal_set_val he hev
      have hcn2 : countNonNil s2.table = countNonNil s.table + 1 := by
        rw [hs2]
        exact countNonNil_set_val_of_nil (henil ▸ he)
      have hkeys2 : s2.iterKeys.Perm (y :: s.iterKeys) :=
        keys_set_val_perm he hev
      have hnodup2 : (s2.iterKeys ++ rest.filterMap keyOf).Nodup := by
        have hp1 : (s2.iterKeys ++ rest.filterMap keyOf).Perm
            ((y :: s.iterKeys) ++ rest.filterMap keyOf) :=
          hkeys2.append_right _
        have hp2 : ((y :: s.iterKeys) ++ rest.filterMap keyOf).Perm
            (s.iterKeys ++ y :: rest.filterMap keyOf) :=
          List.perm_middle.symm
        rw [(hp1.trans hp2).nodup_iff]
        simpa using h6
      have hprob2 : probedOk s2 := probedOk_set_val hk hpath h7
      obtain ⟨s', hrun, hcv, hcn, hperm, hprob⟩ :=
        ih s2 h1 (by rw [hlen2]; exact h2) h3 (by omega)
          (by rw [hlen2]; simp at h5; omega) hnodup2 hprob2
      refine ⟨s', ?_, ?_, hcn, ?_, hprob⟩
      · rw [show reinsertAll (Entry.Val y :: rest) s =
            (match s.insert y with
             | some (_, t') => reinsertAll rest t'
             | none => none) from rfl, hins]
        exact hrun
      · rw [hcv, hcv2, hcount]
        omega
      · have hp3 : s'.iterKeys.Perm ((y :: s.iterKeys) ++ rest.filterMap keyOf) :=
          hperm.trans (hkeys2.append_right _)
        have hp4 := hp3.trans (List.perm_middle.symm)
        simpa using hp4

lemma resize_spec (t : LinearHashTable)
    (hc : ∀ z d, 1 ≤ d → t.hasher z d < 2 ^ d)
    (hlen : t.len = countVal t.table)
    (hnd : t.iterKeys.Nodup) :
    ∃ t', t.resize = some t' ∧
      t'.dim = resizeDimLoop t.len 1 ∧ 1 ≤ t'.dim ∧
      t'.q = t.q ∧ t'.len = t.len ∧ t'.hasher = t.hasher ∧
      t'.table.length = 2 ^ resizeDimLoop t.len 1 ∧
      countVal t'.table = countVal t.table ∧
      countNonNil t'.table = countVal t.table ∧
      t'.iterKeys.Perm t.iterKeys ∧ probedOk t' := by
  set d1 := resizeDimLoop t.len 1 with hd1
  set s0 : LinearHashTable :=
    { t with dim := d1, table := new_table d1 } with hs0
  have hres : t.resize = reinsertAll t.table s0 := rfl
  have hlen0 : s0.table.length = 2 ^ d1 := length_new_table d1
  have hcv0 : countVal s0.table = 0 := countVal_new_table d1
  have hcn0 : countNonNil s0.table = 0 := countNonNil_new_table d1
  have hkeys0 : s0.iterKeys = [] := filterMap_keyOf_new_table d1
  have hprob0 : probedOk s0 := by
    intro p hp
    unfold slotOk
    split
    case _ z heq =>
      rw [hlen0] at hp
      have : s0.table[p]? = some Entry.Nil := by
        rw [hs0]
        exact List.getElem?_replicate_of_lt hp
      rw [this] at heq
      simp at heq
    case _ => trivial
  have hroom : countVal s0.table + countVal t.table ≤ s0.table.length := by
    have h3 := resizeDim_ge t.len
    rw [← hd1] at h3
    rw [hcv0, hlen0, ← hlen]
    omega
  obtain ⟨s', hrun, hcv, hcn, hperm, hprob⟩ :=
    reinsertAll_spec t.table s0 (resizeDim_pos t.len) (by rw [hlen0]) hc
      (by rw [hcv0, hcn0]) hroom (by rw [hkeys0]; simpa using hnd) hprob0
  obtain ⟨f1, f2, f3, f4, f5⟩ := reinsertAll_fields t.table s0 s' hrun
  refine ⟨s', ?_, ?_, ?_, f2, f3, f4, ?_, ?_, ?_, ?_, hprob⟩
  · rw [hres]
    exact hrun
  · rw [f1, hs0]
  · rw [f1, hs0]
    exact resizeDim_pos t.len
  · rw [f5]
    exact hlen0
  · rw [hcv, hcv0]
    omega
  · rw [hcn, hcv, hcv0]
    omega
  · have hperm2 := hperm
    rw [hkeys0] at hperm2
    simpa using hperm2

/-! ### Running the probe loop of `remove` -/

lemma removeLoop_step_val {t : LinearHashTable} {x fuel j y : Nat}
    (hy : y ≠ x) (h : t.table[probePos t x j]? = some (Entry.Val y)) :
    removeLoop t x (fuel + 1) (probePos t x j) =
      removeLoop t x fuel (probePos t x (j + 1)) := by
  conv_lhs => unfold removeLoop
  rw [h]
  simp [hy, loop_index_probePos]

lemma removeLoop_step_del {t : LinearHashTable} {x fuel j : Nat}
    (h : t.table[probePos t x j]? = some Entry.Del) :
    removeLoop t x (fuel + 1) (probePos t x j) =
      removeLoop t x fuel (probePos t x (j + 1)) := by
  conv_lhs => unfold removeLoop
  rw [h]
  simp [loop_index_probePos]

lemma removeLoop_shift (t : LinearHashTable) (x : Nat) (k : Nat) :
    ∀ fuel, k ≤ fuel → (∀ j, j < k → contStep t x j) →
      removeLoop t x fuel (probePos t x 0) =
        removeLoop t x (fuel - k) (probePos t x k) := by
  induction k with
  | zero => intro fuel _ _; rfl
  | succ k ih =>
    intro fuel hk hpath
    rw [ih fuel (by omega) (fun j hj => hpath j (by omega))]
    have hfk : fuel - k = (fuel - (k + 1)) + 1 := by omega
    rw [hfk]
    rcases hpath k (by omega) with ⟨y, hy, hval⟩ | hdel
    · exact removeLoop_step_val hy hval
    · exact removeLoop_step_del hdel

lemma remove_of_path_val {t : LinearHashTable} {x k : Nat}
    (hi0 : t.hash x < t.table.length) (hk : k < t.table.length)
    (hpath : ∀ j, j < k → contStep t x j)
    (hval : t.table[probePos t x k]? = some (Entry.Val x)) :
    t.remove x =
      (if ({ t with
              table := t.table.set (probePos t x k) Entry.Del,
              len := t.len - 1 } : LinearHashTable).shrink_invariant_holds then
        some (({ t with
                  table := t.table.set (probePos t x k) Entry.Del,
                  len := t.len - 1 } : LinearHashTable), Except.ok ())
      else
        match ({ t with
                  table := t.table.set (probePos t x k) Entry.Del,
                  len := t.len - 1 } : LinearHashTable).resize with
        | some t2 => some (t2, Except.ok ())
        | none => none) := by
  unfold remove
  rw [← probePos_zero t x hi0,
    removeLoop_shift t x k t.table.length (le_of_lt hk) hpath]
  have h1 : t.table.length - k = (t.table.length - k - 1) + 1 := by omega
  rw [h1]
  conv_lhs => unfold removeLoop
  rw [hval]
  simp

lemma remove_of_path_nil {t : LinearHashTable} {x k : Nat}
    (hi0 : t.hash x < t.table.length) (hk : k < t.table.length)
    (hpath : ∀ j, j < k → contStep t x j)
    (hnil : t.table[probePos t x k]? = some Entry.Nil) :
    t.remove x = some (t, Except.error Error.KeyNotFound) := by
  unfold remove
  rw [← probePos_zero t x hi0,
    removeLoop_shift t x k t.table.length (le_of_lt hk) hpath]
  have h1 : t.table.length - k = (t.table.length - k - 1) + 1 := by omega
  rw [h1]
  conv_lhs => unfold removeLoop
  rw [hnil]

/-! ### Path extraction from the representation invariant -/

lemma val_reachable_of_mem {t : LinearHashTable} {x : Nat}
    (hprob : probedOk t) (hnd : t.iterKeys.Nodup) (hx : x ∈ t.iterKeys) :
    ∃ k, k < t.table.length ∧ (∀ j, j < k → contStep t x j) ∧
      t.table[probePos t x k]? = some (Entry.Val x) := by
  obtain ⟨p, hp⟩ := mem_iterKeys.1 hx
  have hplt : p < t.table.length := (List.getElem?_eq_some_iff.1 hp).1
  have hn : 0 < t.table.length := by omega
  obtain ⟨k, hk, hpk, hpath⟩ := probeFree_of_probedOk hprob hplt hp
  refine ⟨k, hk, fun j hj => ?_, by rw [hpk]; exact hp⟩
  obtain ⟨e, he⟩ := getElem?_total (probePos_lt t x j hn)
  match e with
  | Entry.Nil => exact absurd he (hpath j hj)
  | Entry.Del => exact Or.inr he
  | Entry.Val y =>
    refine Or.inl ⟨y, fun hyx => ?_, he⟩
    rw [hyx] at he
    have hj_eq : probePos t x j = p := val_slot_unique hnd he hp
    have hjk : j = k := probePos_inj t x (by omega) hk (by rw [hj_eq, hpk])
    omega

lemma nil_reachable_of_not_mem {t : LinearHashTable} {x : Nat}
    (hroom : countNonNil t.table < t.table.length) (hx : x ∉ t.iterKeys) :
    ∃ k, k < t.table.length ∧ (∀ j, j < k → contStep t x j) ∧
      t.table[probePos t x k]? = some Entry.Nil := by
  have hn : 0 < t.table.length := by omega
  obtain ⟨pn, hpn, hpnil⟩ := nil_slot_exists hroom
  obtain ⟨jn, hjn, hjp⟩ := probePos_surj t x hn hpn
  have hPex : ∃ j, t.table[probePos t x j]? = some Entry.Nil :=
    ⟨jn, by rw [hjp]; exact hpnil⟩
  classical
  refine ⟨Nat.find hPex, by
    have := Nat.find_min' hPex (show t.table[probePos t x jn]? = some Entry.Nil
      from by rw [hjp]; exact hpnil)
    omega, fun j hj => ?_, Nat.find_spec hPex⟩
  have hjnot := Nat.find_min hPex hj
  obtain ⟨e, he⟩ := getElem?_total (probePos_lt t x j hn)
  match e with
  | Entry.Nil => exact absurd he hjnot
  | Entry.Del => exact Or.inr he
  | Entry.Val y =>
    refine Or.inl ⟨y, fun hyx => ?_, he⟩
    rw [hyx] at he
    exact hx (mem_iterKeys.2 ⟨probePos t x j, he⟩)

/-! ### Transferring the probe invariant between equal-layout tables -/

lemma probeFree_of_eq {t1 t2 : LinearHashTable} (htab : t2.table = t1.table)
    (hd : t2.dim = t1.dim) (hh : t2.hasher = t1.hasher) {x p : Nat}
    (h : probeFree t1 x p) : probeFree t2 x p := by
  unfold probeFree probePos LinearHashTable.hash at h ⊢
  rw [htab, hd, hh]
  exact h

lemma probedOk_of_eq {t1 t2 : LinearHashTable} (htab : t2.table = t1.table)
    (hd : t2.dim = t1.dim) (hh : t2.hasher = t1.hasher)
    (h : probedOk t1) : probedOk t2 := by
  intro p hp
  rw [htab] at hp
  have hs := h p hp
  unfold slotOk at hs ⊢
  rw [htab]
  split
  case _ z heq =>
    rw [heq] at hs
    exact probeFree_of_eq htab hd hh hs
  case _ => trivial

/-! ### Specification of the public operations on well-formed tables -/

lemma wf_length_ge_two {t : LinearHashTable} (hwf : WF t) :
    2 ≤ t.table.length := by
  rw [hwf.length_eq]
  calc 2 = 2 ^ 1 := rfl
  _ ≤ 2 ^ t.dim := Nat.pow_le_pow_right (by omega) hwf.dim_pos

lemma wf_hash_lt {t : LinearHashTable} (hwf : WF t) (x : Nat) :
    t.hash x < t.table.length := by
  rw [hwf.length_eq]
  exact hwf.contract x t.dim hwf.dim_pos

lemma wf_room {t : LinearHashTable} (hwf : WF t) :
    countNonNil t.table < t.table.length := by
  have h1 := hwf.growSlack
  have h2 := wf_length_ge_two hwf
  omega

lemma add_tail (t1 : LinearHashTable) (x : Nat)
    (hdim : 1 ≤ t1.dim) (hlen : t1.table.length = 2 ^ t1.dim)
    (hcontract : ∀ z d, 1 ≤ d → t1.hasher z d < 2 ^ d)
    (hlen_eq : t1.len = countVal t1.table)
    (hq : countNonNil t1.table ≤ t1.q)
    (hnd : t1.iterKeys.Nodup) (hprob : probedOk t1)
    (hx : x ∉ t1.iterKeys)
    (hroom2 : 2 * (countNonNil t1.table + 1) ≤ t1.table.length)
    (hshrink : t1.table.length ≤ 8 * (t1.len + 1)) :
    ∃ t', ((match t1.insert x with
            | none => none
            | some (e, t2) =>
              let t3 := if e = Entry.Nil then { t2 with q := t2.q + 1 } else t2
              some ({ t3 with len := t3.len + 1 }, Except.ok ())) :
           Option (LinearHashTable × Except Error Unit))
          = some (t', Except.ok ()) ∧
      WF t' ∧ t'.iterKeys.Perm (x :: t1.iterKeys) ∧ t'.dim = t1.dim := by
  have hi0 : t1.hash x < t1.table.length := by
    rw [hlen]
    exact hcontract x t1.dim hdim
  have hroom : countNonNil t1.table < t1.table.length := by omega
  obtain ⟨k, e, hk, hpath, he, hev, hins⟩ := insert_spec t1 x hi0 hroom
  rw [hins]
  set t2 := { t1 with table := t1.table.set (probePos t1 x k) (Entry.Val x) }
    with ht2
  have hlen2 : t2.table.length = t1.table.length := by
    rw [ht2]
    exact List.length_set t1.table _ _
  have hcv2 : countVal t2.table = countVal t1.table + 1 :=
    countVal_set_val he hev
  have hkeys2 : t2.iterKeys.Perm (x :: t1.iterKeys) := keys_set_val_perm he hev
  have hnd2 : t2.iterKeys.Nodup :=
    hkeys2.nodup_iff.2 (List.nodup_cons.2 ⟨hx, hnd⟩)
  have hprob2 : probedOk t2 := probedOk_set_val hk hpath hprob
  match e, hev with
  | Entry.Nil, _ =>
    have hcn2 : countNonNil t2.table = countNonNil t1.table + 1 :=
      countNonNil_set_val_of_nil he
    refine ⟨{ t2 with q := t2.q + 1, len := t2.len + 1 }, by simp,
      ⟨hdim, ?_, ?_, ?_, ?_, ?_, ?_, hnd2, ?_, hcontract⟩, hkeys2, rfl⟩
    · rw [show ({ t2 with q := t2.q + 1, len := t2.len + 1 } :
          LinearHashTable).table.length = t2.table.length from rfl, hlen2, hlen]
    · show t1.len + 1 = countVal t2.table
      omega
    · show countNonNil t2.table ≤ t1.q + 1
      omega
    · show 2 * countNonNil t2.table ≤ t2.table.length
      omega
    · intro h0
      simp at h0
    · intro _
      show t2.table.length ≤ 8 * (t1.len + 1)
      omega
    · exact probedOk_of_eq rfl rfl rfl hprob2
  | Entry.Del, _ =>
    have hcn2 : countNonNil t2.table = countNonNil t1.table :=
      countNonNil_set_val_of_del he
    refine ⟨{ t2 with len := t2.len + 1 }, by simp,
      ⟨hdim, ?_, ?_, ?_, ?_, ?_, ?_, hnd2, ?_, hcontract⟩, hkeys2, rfl⟩
    · rw [show ({ t2 with len := t2.len + 1 } :
          LinearHashTable).table.length = t2.table.length from rfl, hlen2, hlen]
    · show t1.len + 1 = countVal t2.table
      omega
    · show countNonNil t2.table ≤ t1.q
      omega
    · show 2 * countNonNil t2.table ≤ t2.table.length
      omega
    · intro h0
      simp at h0
    · intro _
      show t2.table.length ≤ 8 * (t1.len + 1)
      omega
    · exact probedOk_of_eq rfl rfl rfl hprob2

lemma add_already (t : LinearHashTable) (x : Nat) (hwf : WF t)
    (hx : x ∈ t.iterKeys) :
    t.add x = some (t, Except.error Error.KeyAlreadyExists) := by
  unfold add
  rw [contains_eq_decide hwf x]
  simp [hx]

lemma add_new (t : LinearHashTable) (x : Nat) (hwf : WF t)
    (hx : x ∉ t.iterKeys) :
    ∃ t', t.add x = some (t', Except.ok ()) ∧ WF t' ∧
      t'.iterKeys.Perm (x :: t.iterKeys) ∧
      (¬ t.grow_invariant_holds → t'.dim = resizeDimLoop t.len 1) := by
  have hcont : t.contains x = some false := by
    rw [contains_eq_decide hwf x]
    simp [hx]
  by_cases hg : t.grow_invariant_holds
  · have hg' : 2 * (t.q + 1) ≤ t.table.length := hg
    have hroom2 : 2 * (countNonNil t.table + 1) ≤ t.table.length := by
      have := hwf.q_ge
      omega
    have hshrink : t.table.length ≤ 8 * (t.len + 1) := by
      rcases Nat.eq_zero_or_pos t.len with h0 | h1
      · have := hwf.shrinkZero h0
        omega
      · have := hwf.shrinkPos h1
        omega
    obtain ⟨t', htail, hwf', hperm', hdim'⟩ :=
      add_tail t x hwf.dim_pos hwf.length_eq hwf.contract hwf.len_eq
        hwf.q_ge hwf.keysNodup hwf.probed hx hroom2 hshrink
    refine ⟨t', ?_, hwf', hperm', fun hng => absurd hg hng⟩
    unfold add
    rw [hcont, if_pos hg]
    exact htail
  · obtain ⟨tr, hres, hdimr, hdimr1, hqr, hlenr, hhashr, hlengthr, hcvr,
      hcnr, hkeysr, hprobr⟩ :=
      resize_spec t hwf.contract hwf.len_eq hwf.keysNodup
    have hxr : x ∉ tr.iterKeys := fun hc => hx (hkeysr.mem_iff.1 hc)
    have hlenr_eq : tr.len = countVal tr.table := by
      rw [hlenr, hcvr, hwf.len_eq]
    have hqr_ge : countNonNil tr.table ≤ tr.q := by
      have h1 := countVal_le_countNonNil t.table
      have h2 := hwf.q_ge
      rw [hcnr, hqr]
      omega
    have hlength2 : tr.table.length = 2 ^ tr.dim := by
      rw [hlengthr, hdimr]
    have hndr : tr.iterKeys.Nodup := hkeysr.nodup_iff.2 hwf.keysNodup
    have hcontractr : ∀ z d, 1 ≤ d → tr.hasher z d < 2 ^ d := by
      rw [hhashr]
      exact hwf.contract
    have hroom2 : 2 * (countNonNil tr.table + 1) ≤ tr.table.length := by
      have h1 := resizeDim_grow t.len
      rw [hcnr, hlengthr, ← hwf.len_eq]
      omega
    have hshrinkr : tr.table.length ≤ 8 * (tr.len + 1) := by
      rcases Nat.eq_zero_or_pos t.len with h0 | h1
      · rw [hlengthr, hlenr, h0, resizeDimLoop_zero]
        norm_num
      · have h2 := resizeDim_upper t.len h1
        rw [hlengthr, hlenr]
        omega
    obtain ⟨t', htail, hwf', hperm', hdim'⟩ :=
      add_tail tr x hdimr1 hlength2 hcontractr hlenr_eq hqr_ge hndr
        hprobr hxr hroom2 hshrinkr
    refine ⟨t', ?_, hwf', ?_, fun _ => ?_⟩
    · unfold add
      rw [hcont, if_neg hg, hres]
      exact htail
    · exact hperm'.trans (hkeysr.cons x)
    · rw [hdim', hdimr]

lemma remove_notfound (t : LinearHashTable) (x : Nat) (hwf : WF t)
    (hx : x ∉ t.iterKeys) :
    t.remove x = some (t, Except.error Error.KeyNotFound) := by
  obtain ⟨k, hk, hpath, hnil⟩ := nil_reachable_of_not_mem (wf_room hwf) hx
  exact remove_of_path_nil (wf_hash_lt hwf x) hk hpath hnil

lemma remove_found (t : LinearHashTable) (x : Nat) (hwf : WF t)
    (hx : x ∈ t.iterKeys) :
    ∃ t', t.remove x = some (t', Except.ok ()) ∧ WF t' ∧
      t.iterKeys.Perm (x :: t'.iterKeys) := by
  obtain ⟨k, hk, hpath, hval⟩ := val_reachable_of_mem hwf.probed
    hwf.keysNodup hx
  have hrm := remove_of_path_val (wf_hash_lt hwf x) hk hpath hval
  set p := probePos t x k with hp_def
  set t1 : LinearHashTable :=
    { t with table := t.table.set p Entry.Del, len := t.len - 1 } with ht1
  have hcv1 : countVal t1.table + 1 = countVal t.table := countVal_set_del hval
  have hcn1 : countNonNil t1.table = countNonNil t.table :=
    countNonNil_set_del hval
  have hlen1 : t1.table.length = t.table.length := by
    rw [ht1]
    exact List.length_set t.table _ _
  have hkeysperm : t.iterKeys.Perm (x :: t1.iterKeys) := keys_set_del_perm hval
  have hlenpos : 1 ≤ t.len := by
    have := hwf.len_eq
    omega
  have hlen1_eq : t1.len = countVal t1.table := by
    have h1 := hwf.len_eq
    show t.len - 1 = countVal t1.table
    omega
  have hndx : (x :: t1.iterKeys).Nodup := hkeysperm.nodup_iff.1 hwf.keysNodup
  have hnd1 : t1.iterKeys.Nodup := (List.nodup_cons.1 hndx).2
  have hprob1 : probedOk t1 :=
    probedOk_of_eq rfl rfl rfl (probedOk_set_del hval hwf.probed)
  have hn2 := wf_length_ge_two hwf
  by_cases hs : t1.shrink_invariant_holds
  · refine ⟨t1, ?_, ?_, hkeysperm⟩
    · rw [hrm, if_pos hs]
    · have hs' : t1.table.length ≤ 8 * t1.len := hs
      refine ⟨hwf.dim_pos, ?_, hlen1_eq, ?_, ?_, ?_, fun _ => hs', hnd1,
        hprob1, hwf.contract⟩
      · rw [hlen1, hwf.length_eq]
      · rw [hcn1]
        exact hwf.q_ge
      · rw [hcn1, hlen1]
        exact hwf.growSlack
      · intro h0
        rw [h0] at hs'
        omega
  · obtain ⟨tr, hres, hdimr, hdimr1, hqr, hlenr, hhashr, hlengthr, hcvr,
      hcnr, hkeysr, hprobr⟩ :=
      resize_spec t1 hwf.contract hlen1_eq hnd1
    refine ⟨tr, ?_, ?_, ?_⟩
    · rw [hrm, if_neg hs, hres]
    · refine ⟨hdimr1, ?_, ?_, ?_, ?_, ?_, ?_, ?_, hprobr, ?_⟩
      · rw [hlengthr, hdimr]
      · rw [hlenr, hcvr, hlen1_eq]
      · have h1 := countVal_le_countNonNil t1.table
        have h2 := hwf.q_ge
        rw [hcnr, hqr]
        show countVal t1.table ≤ t.q
        omega
      · have h1 := resizeDim_ge t1.len
        rw [hcnr, hlengthr, ← hlen1_eq]
        omega
      · intro h0
        have h1 : t1.len = 0 := by omega
        rw [hlengthr, h1, resizeDimLoop_zero]
        norm_num
      · intro h1
        have h2 : 1 ≤ t1.len := by omega
        have h3 := resizeDim_upper t1.len h2
        rw [hlengthr, hlenr]
        omega
      · exact hkeysr.nodup_iff.2 hnd1
      · rw [hhashr]
        exact hwf.contract
    · exact hkeysperm.trans ((hkeysr.symm.cons x))

lemma probedOk_all_nil {t : LinearHashTable}
    (h : ∀ p, p < t.table.length → t.table[p]? = some Entry.Nil) :
    probedOk t := by
  intro p hp
  unfold slotOk
  split
  case _ z heq =>
    rw [h p hp] at heq
    simp at heq
  case _ => trivial

lemma init_wf (hasher : Nat → Nat → Nat)
    (hc : ∀ x d, 1 ≤ d → hasher x d < 2 ^ d) :
    WF (LinearHashTable.init hasher) := by
  refine ⟨le_refl 1, ?_, ?_, ?_, ?_, ?_, ?_, ?_, ?_, hc⟩
  · exact length_new_table 1
  · rw [show (LinearHashTable.init hasher).len = 0 from rfl,
      show (LinearHashTable.init hasher).table = new_table 1 from rfl,
      countVal_new_table]
  · rw [show (LinearHashTable.init hasher).table = new_table 1 from rfl,
      countNonNil_new_table]
    omega
  · rw [show (LinearHashTable.init hasher).table = new_table 1 from rfl,
      countNonNil_new_table, length_new_table]
    norm_num
  · intro _
    rw [show (LinearHashTable.init hasher).table = new_table 1 from rfl,
      length_new_table]
    norm_num
  · intro h1
    rw [show (LinearHashTable.init hasher).len = 0 from rfl] at h1
    omega
  · rw [show (LinearHashTable.init hasher).iterKeys =
      (new_table 1).filterMap keyOf from rfl, filterMap_keyOf_new_table]
    exact List.nodup_nil
  · refine probedOk_all_nil fun p hp => ?_
    rw [show (LinearHashTable.init hasher).table = new_table 1 from rfl]
      at hp ⊢
    rw [length_new_table] at hp
    exact List.getElem?_replicate_of_lt hp

/-- Every table reachable from `initialize` by `add`/`remove` calls
satisfies the representation invariant. -/
theorem reachable_wf {t : LinearHashTable} (h : Reachable t) : WF t := by
  induction h with
  | init hasher hc => exact init_wf hasher hc
  | addR t x t' r ht hadd ih =>
    by_cases hx : x ∈ t.iterKeys
    · have h2 := add_already t x ih hx
      rw [h2] at hadd
      simp only [Option.some.injEq, Prod.mk.injEq] at hadd
      rw [← hadd.1]
      exact ih
    · obtain ⟨t'', hadd2, hwf2, _, _⟩ := add_new t x ih hx
      rw [hadd2] at hadd
      simp only [Option.some.injEq, Prod.mk.injEq] at hadd
      rw [← hadd.1]
      exact hwf2
  | removeR t x t' r ht hrm ih =>
    by_cases hx : x ∈ t.iterKeys
    · obtain ⟨t'', hrm2, hwf2, _⟩ := remove_found t x ih hx
      rw [hrm2] at hrm
      simp only [Option.some.injEq, Prod.mk.injEq] at hrm
      rw [← hrm.1]
      exact hwf2
    · have h2 := remove_notfound t x ih hx
      rw [h2] at hrm
      simp only [Option.some.injEq, Prod.mk.injEq] at hrm
      rw [← hrm.1]
      exact ih

/-! ### The `PartialEq` implementation -/

lemma allContains_eq_true {t2 : LinearHashTable} (hwf2 : WF t2)
    (ks : List Nat) :
    allContains t2 ks = some true ↔ ∀ x ∈ ks, x ∈ t2.iterKeys := by
  induction ks with
  | nil => simp [allContains]
  | cons a ks ih =>
    rw [show allContains t2 (a :: ks) =
        (match t2.contains a with
         | some true => allContains t2 ks
         | some false => some false
         | none => none) from rfl,
      contains_eq_decide hwf2 a]
    by_cases ha : a ∈ t2.iterKeys
    · simp [ha, ih]
    · simp [ha]

lemma tableEq_iff (t1 t2 : LinearHashTable) (hwf1 : WF t1) (hwf2 : WF t2) :
    tableEq t1 t2 = some true ↔
      ∀ x, x ∈ t1.iterKeys ↔ x ∈ t2.iterKeys := by
  have hlen1 : t1.iterKeys.length = t1.len := by
    rw [length_iterKeys, hwf1.len_eq]
  have hlen2 : t2.iterKeys.length = t2.len := by
    rw [length_iterKeys, hwf2.len_eq]
  unfold tableEq
  by_cases hlen : t1.len = t2.len
  · rw [if_pos hlen, allContains_eq_true hwf2]
    constructor
    · intro hsub x
      have hcard1 : t1.iterKeys.toFinset.card = t1.len := by
        rw [List.toFinset_card_of_nodup hwf1.keysNodup, hlen1]
      have hcard2 : t2.iterKeys.toFinset.card = t2.len := by
        rw [List.toFinset_card_of_nodup hwf2.keysNodup, hlen2]
      have hsub' : t1.iterKeys.toFinset ⊆ t2.iterKeys.toFinset := by
        intro a ha
        rw [List.mem_toFinset] at ha ⊢
        exact hsub a ha
      have hset : t1.iterKeys.toFinset = t2.iterKeys.toFinset :=
        Finset.eq_of_subset_of_card_le hsub' (by omega)
      constructor
      · exact fun hx => hsub x hx
      · intro hx2
        have : x ∈ t2.iterKeys.toFinset := List.mem_toFinset.2 hx2
        rw [← hset] at this
        exact List.mem_toFinset.1 this
    · intro hiff x hx
      exact (hiff x).1 hx
  · rw [if_neg hlen]
    constructor
    · intro hcontra
      simp at hcontra
    · intro hiff
      exfalso
      apply hlen
      have hset : t1.iterKeys.toFinset = t2.iterKeys.toFinset := by
        ext a
        rw [List.mem_toFinset, List.mem_toFinset]
        exact hiff a
      have := congrArg Finset.card hset
      rw [List.toFinset_card_of_nodup hwf1.keysNodup,
        List.toFinset_card_of_nodup hwf2.keysNodup, hlen1, hlen2] at this
      exact this

/-! ### The multiplicative hasher -/

lemma mhash_lt (z x dim : Nat) (h1 : 1 ≤ dim) (h2 : dim ≤ 64) :
    Multiplicative.mhash z x dim < 2 ^ dim := by
  unfold Multiplicative.mhash
  rw [Nat.shiftRight_eq_div_pow]
  have hp : 0 < 2 ^ (64 - dim) := Nat.pos_pow_of_pos _ (by omega)
  rw [Nat.div_lt_iff_lt_mul hp, ← Nat.pow_add]
  have h3 : dim + (64 - dim) = 64 := by omega
  rw [h3]
  exact Nat.mod_lt _ (by norm_num)

/-! ### A concrete reachable run (hasher `h0`, keys 0, 1, 4) -/

lemma h0_contract : ∀ x d, 1 ≤ d → h0 x d < 2 ^ d := fun x d _ =>
  Nat.mod_lt _ (Nat.pos_pow_of_pos _ (by omega))

lemma rdl11 : resizeDimLoop 1 1 = 2 := by
  rw [resizeDimLoop]
  norm_num
  rw [resizeDimLoop]
  norm_num

lemma add_w0_eq : (LinearHashTable.init h0).add 0 = some (w1, Except.ok ()) := by
  rfl

lemma add_w1_eq : w1.add 1 = some (w2, Except.ok ()) := by
  have hres : w1.resize =
      some ⟨2, [Entry.Val 0, Entry.Nil, Entry.Nil, Entry.Nil], 1, 1, h0⟩ := by
    unfold resize
    norm_num [w1, rdl11]
    rfl
  unfold add
  norm_num [show w1.contains 1 = some false from by decide,
    show ¬ w1.grow_invariant_holds from by decide, hres]
  rfl

lemma remove_w2_eq : w2.remove 0 = some (w3, Except.ok ()) := by
  rfl

lemma resize_w3_eq : w3.resize =
    some ⟨2, [Entry.Nil, Entry.Val 1, Entry.Nil, Entry.Nil], 2, 1, h0⟩ := by
  unfold resize
  norm_num [w3, rdl11]
  rfl

lemma add_w3_eq : w3.add 4 = some (w4, Except.ok ()) := by
  unfold add
  norm_num [show w3.contains 4 = some false from by decide,
    show ¬ w3.grow_invariant_holds from by decide, resize_w3_eq]
  rfl

lemma reachable_w1 : Reachable w1 :=
  Reachable.addR (LinearHashTable.init h0) 0 w1 (Except.ok ())
    (Reachable.init h0 h0_contract) add_w0_eq

lemma reachable_w2 : Reachable w2 :=
  Reachable.addR w1 1 w2 (Except.ok ()) reachable_w1 add_w1_eq

lemma reachable_w3 : Reachable w3 :=
  Reachable.removeR w2 0 w3 (Except.ok ()) reachable_w2 remove_w2_eq

/-! ### Claim theorems -/

/-- C1: for every key `x` and every table reachable from `initialize` by
`add`/`remove` calls: after a completed `add(x)` call (whatever it returns),
`contains(x)` returns `true`; after a completed `remove(x)` call (whatever
it returns), `contains(x)` returns `false`. -/
theorem C1_contains_after_add_remove (t : LinearHashTable) (x : Nat)
    (h : Reachable t) :
    (∀ t' r, t.add x = some (t', r) → t'.contains x = some true) ∧
    (∀ t' r, t.remove x = some (t', r) → t'.contains x = some false) := by
  have hwf := reachable_wf h
  constructor
  · intro t' r hadd
    by_cases hx : x ∈ t.iterKeys
    · rw [add_already t x hwf hx] at hadd
      simp only [Option.some.injEq, Prod.mk.injEq] at hadd
      rw [← hadd.1, contains_eq_decide hwf x]
      simp [hx]
    · obtain ⟨t'', hadd2, hwf2, hperm2, -⟩ := add_new t x hwf hx
      rw [hadd2] at hadd
      simp only [Option.some.injEq, Prod.mk.injEq] at hadd
      rw [← hadd.1, contains_eq_decide hwf2 x]
      have hmem : x ∈ t''.iterKeys := hperm2.mem_iff.2 (List.mem_cons_self x _)
      simp [hmem]
  · intro t' r hrm
    by_cases hx : x ∈ t.iterKeys
    · obtain ⟨t'', hrm2, hwf2, hperm2⟩ := remove_found t x hwf hx
      rw [hrm2] at hrm
      simp only [Option.some.injEq, Prod.mk.injEq] at hrm
      have hnmem : x ∉ t''.iterKeys := by
        have hnd := hperm2.nodup_iff.1 hwf.keysNodup
        exact (List.nodup_cons.1 hnd).1
      rw [← hrm.1, contains_eq_decide hwf2 x]
      simp [hnmem]
    · rw [remove_notfound t x hwf hx] at hrm
      simp only [Option.some.injEq, Prod.mk.injEq] at hrm
      rw [← hrm.1, contains_eq_decide hwf x]
      simp [hx]

/-- C1 witness: the claim instantiated at the freshly initialized table with
key 5. -/
theorem C1_witness :
    Reachable (LinearHashTable.init h0) ∧
      ((∀ t' r, (LinearHashTable.init h0).add 5 = some (t', r) →
          t'.contains 5 = some true) ∧
       (∀ t' r, (LinearHashTable.init h0).remove 5 = some (t', r) →
          t'.contains 5 = some false)) :=
  ⟨Reachable.init h0 h0_contract,
    C1_contains_after_add_remove (LinearHashTable.init h0) 5
      (Reachable.init h0 h0_contract)⟩

/-- C2 (code bug): the spec says `resize` resets `occupied_count` to 0 and
re-increments it per re-placement, ending with `occupied_count` equal to the
number of occupied slots.  The code never touches `q` in `resize`: on the
reachable table `w3` (one live key, one tombstone, `q = 2`), resizing yields
a table whose `q` is still 2 while only 1 slot is occupied. -/
theorem C2_resize_leaves_q_stale :
    Reachable w3 ∧ w3.q = 2 ∧ countVal w3.table = 1 ∧
      (w3.resize.map fun s => (s.q, countVal s.table)) = some (2, 1) := by
  refine ⟨reachable_w3, rfl, by decide, ?_⟩
  rw [resize_w3_eq]
  rfl

/-- C3 counterexample: on the reachable table `w3` (`q = 2`, `len = 1`),
`add 4` triggers a resize (the grow invariant fails) and picks `new_dim = 2`,
but the claim's formula demands `2 ^ new_dim ≥ 2 * (occupied_count + 1) = 6`,
which `2 ^ 2 = 4` violates. -/
theorem C3_counterexample :
    Reachable w3 ∧ ¬ w3.grow_invariant_holds ∧
      (w3.add 4).map (fun p => p.1.dim) = some 2 ∧
      ¬ 2 * (w3.q + 1) ≤ 2 ^ 2 := by
  refine ⟨reachable_w3, by decide, ?_, by decide⟩
  rw [add_w3_eq]
  rfl

/-- C3 amended: when a resize is triggered by `add` on a reachable table,
the new capacity exponent is the smallest `new_dim ≥ 1` such that
`2 ^ new_dim ≥ 3 * live_count` (the code derives it from `len`, not from
`occupied_count`). -/
theorem C3_grow_dim_amended (t : LinearHashTable) (x : Nat) (h : Reachable t)
    (t' : LinearHashTable) (hadd : t.add x = some (t', Except.ok ()))
    (hg : ¬ t.grow_invariant_holds) :
    1 ≤ t'.dim ∧ 3 * t.len ≤ 2 ^ t'.dim ∧
      ∀ e, 1 ≤ e → 3 * t.len ≤ 2 ^ e → t'.dim ≤ e := by
  have hwf := reachable_wf h
  by_cases hx : x ∈ t.iterKeys
  · rw [add_already t x hwf hx] at hadd
    simp at hadd
  · obtain ⟨t'', hadd2, -, -, hdim⟩ := add_new t x hwf hx
    rw [hadd2] at hadd
    simp only [Option.some.injEq, Prod.mk.injEq] at hadd
    rw [← hadd.1, hdim hg]
    exact ⟨resizeDim_pos t.len, resizeDim_ge t.len,
      fun e he1 he2 => resizeDim_min t.len e he1 he2⟩

/-- C3 witness: the amended claim instantiated on the reachable table `w3`
with key 4 (`add` grows `w3` to dimension 2). -/
theorem C3_witness :
    Reachable w3 ∧ w3.add 4 = some (w4, Except.ok ()) ∧
      ¬ w3.grow_invariant_holds ∧
      (1 ≤ w4.dim ∧ 3 * w3.len ≤ 2 ^ w4.dim ∧
        ∀ e, 1 ≤ e → 3 * w3.len ≤ 2 ^ e → w4.dim ≤ e) :=
  ⟨reachable_w3, add_w3_eq, by decide,
    C3_grow_dim_amended w3 4 reachable_w3 w4 add_w3_eq (by decide)⟩

/-- C4 counterexample: immediately after `initialize` followed by one `add`,
the table `w1` (2 slots, `q = 1`) is reachable, yet
`slots.length ≥ 2 * (occupied_count + 1)` fails (`2 < 4`): the code checks
that inequality *before* an insertion, not after. -/
theorem C4_counterexample :
    Reachable w1 ∧ ¬ w1.grow_invariant_holds :=
  ⟨reachable_w1, by decide⟩

/-- C4 amended: after every completed public operation on a reachable table,
`slots.length ≥ 2 * (number of Occupied-or-Tombstone slots)` — the occupied
fraction stays at most 1/2.  (The counter `q` itself can drift above the
true non-empty count because `resize` never resets it, see C2.) -/
theorem C4_grow_invariant_amended (t : LinearHashTable) (h : Reachable t) :
    2 * countNonNil t.table ≤ t.table.length :=
  (reachable_wf h).growSlack

/-- C4 witness: the amended invariant at the freshly initialized table. -/
theorem C4_witness :
    Reachable (LinearHashTable.init h0) ∧
      2 * countNonNil (LinearHashTable.init h0).table ≤
        (LinearHashTable.init h0).table.length :=
  ⟨Reachable.init h0 h0_contract,
    C4_grow_invariant_amended (LinearHashTable.init h0)
      (Reachable.init h0 h0_contract)⟩

/-- C5 counterexample: `initialize` yields a reachable table with 2 slots
and `live_count = 0`, so `slots.length ≤ 8 * live_count` fails right away
— the shrink invariant cannot hold at `live_count = 0`. -/
theorem C5_counterexample :
    Reachable (LinearHashTable.init h0) ∧
      ¬ (LinearHashTable.init h0).shrink_invariant_holds :=
  ⟨Reachable.init h0 h0_contract, by decide⟩

/-- C5 amended: after every completed public operation on a reachable table,
`slots.length ≤ 8 * live_count` holds whenever `live_count ≥ 1`; when
`live_count = 0` the capacity is exactly 2 (the minimum). -/
theorem C5_shrink_invariant_amended (t : LinearHashTable) (h : Reachable t) :
    (t.len = 0 → t.table.length = 2) ∧
      (1 ≤ t.len → t.table.length ≤ 8 * t.len) :=
  ⟨(reachable_wf h).shrinkZero, (reachable_wf h).shrinkPos⟩

/-- C5 witness: the amended invariant at the freshly initialized table. -/
theorem C5_witness :
    Reachable (LinearHashTable.init h0) ∧
      (((LinearHashTable.init h0).len = 0 →
          (LinearHashTable.init h0).table.length = 2) ∧
       (1 ≤ (LinearHashTable.init h0).len →
          (LinearHashTable.init h0).table.length ≤
            8 * (LinearHashTable.init h0).len)) :=
  ⟨Reachable.init h0 h0_contract,
    C5_shrink_invariant_amended (LinearHashTable.init h0)
      (Reachable.init h0 h0_contract)⟩

/-- C6: on a reachable table, `add(x)` returns `Err(KeyAlreadyExists)` iff
`x` is present, and `remove(x)` returns `Err(KeyNotFound)` iff `x` is
absent; in either error case the table is returned unchanged. -/
theorem C6_error_results (t : LinearHashTable) (x : Nat) (h : Reachable t) :
    (∀ t' r, t.add x = some (t', r) →
      ((r = Except.error Error.KeyAlreadyExists ↔ x ∈ t.iterKeys) ∧
        (∀ e, r = Except.error e → t' = t))) ∧
    (∀ t' r, t.remove x = some (t', r) →
      ((r = Except.error Error.KeyNotFound ↔ x ∉ t.iterKeys) ∧
        (∀ e, r = Except.error e → t' = t))) := by
  have hwf := reachable_wf h
  constructor
  · intro t' r hadd
    by_cases hx : x ∈ t.iterKeys
    · rw [add_already t x hwf hx] at hadd
      simp only [Option.some.injEq, Prod.mk.injEq] at hadd
      obtain ⟨h1, h2⟩ := hadd
      refine ⟨?_, fun e _ => h1.symm⟩
      rw [← h2]
      simp [hx]
    · obtain ⟨t'', hadd2, -, -, -⟩ := add_new t x hwf hx
      rw [hadd2] at hadd
      simp only [Option.some.injEq, Prod.mk.injEq] at hadd
      obtain ⟨h1, h2⟩ := hadd
      refine ⟨?_, fun e he => ?_⟩
      · rw [← h2]
        simp [hx]
      · rw [← h2] at he
        simp at he
  · intro t' r hrm
    by_cases hx : x ∈ t.iterKeys
    · obtain ⟨t'', hrm2, -, -⟩ := remove_found t x hwf hx
      rw [hrm2] at hrm
      simp only [Option.some.injEq, Prod.mk.injEq] at hrm
      obtain ⟨h1, h2⟩ := hrm
      refine ⟨?_, fun e he => ?_⟩
      · rw [← h2]
        simp [hx]
      · rw [← h2] at he
        simp at he
    · rw [remove_notfound t x hwf hx] at hrm
      simp only [Option.some.injEq, Prod.mk.injEq] at hrm
      obtain ⟨h1, h2⟩ := hrm
      refine ⟨?_, fun e _ => h1.symm⟩
      rw [← h2]
      simp [hx]

/-- C6 witness: the claim instantiated at the freshly initialized table with
key 5. -/
theorem C6_witness :
    Reachable (LinearHashTable.init h0) ∧
      ((∀ t' r, (LinearHashTable.init h0).add 5 = some (t', r) →
        ((r = Except.error Error.KeyAlreadyExists ↔
            5 ∈ (LinearHashTable.init h0).iterKeys) ∧
          (∀ e, r = Except.error e → t' = LinearHashTable.init h0))) ∧
       (∀ t' r, (LinearHashTable.init h0).remove 5 = some (t', r) →
        ((r = Except.error Error.KeyNotFound ↔
            5 ∉ (LinearHashTable.init h0).iterKeys) ∧
          (∀ e, r = Except.error e → t' = LinearHashTable.init h0)))) :=
  ⟨Reachable.init h0 h0_contract,
    C6_error_results (LinearHashTable.init h0) 5
      (Reachable.init h0 h0_contract)⟩

/-- C7: on a reachable table, the probe loops of `contains`, `add` and
`remove` terminate for every key.  Every loop in the model carries fuel
equal to its table's `slots.length`, so a `some` result means the loop
resolved within at most `slots.length` probed slots. -/
theorem C7_probe_termination (t : LinearHashTable) (x : Nat)
    (h : Reachable t) :
    (t.contains x).isSome = true ∧ (t.add x).isSome = true ∧
      (t.remove x).isSome = true := by
  have hwf := reachable_wf h
  refine ⟨?_, ?_, ?_⟩
  · rw [contains_eq_decide hwf x]
    rfl
  · by_cases hx : x ∈ t.iterKeys
    · rw [add_already t x hwf hx]
      rfl
    · obtain ⟨t'', hadd2, -, -, -⟩ := add_new t x hwf hx
      rw [hadd2]
      rfl
  · by_cases hx : x ∈ t.iterKeys
    · obtain ⟨t'', hrm2, -, -⟩ := remove_found t x hwf hx
      rw [hrm2]
      rfl
    · rw [remove_notfound t x hwf hx]
      rfl

/-- C7 witness: termination at the freshly initialized table with key 5. -/
theorem C7_witness :
    Reachable (LinearHashTable.init h0) ∧
      (((LinearHashTable.init h0).contains 5).isSome = true ∧
       ((LinearHashTable.init h0).add 5).isSome = true ∧
       ((LinearHashTable.init h0).remove 5).isSome = true) :=
  ⟨Reachable.init h0 h0_contract,
    C7_probe_termination (LinearHashTable.init h0) 5
      (Reachable.init h0 h0_contract)⟩

/-- C8: two tables satisfying the representation invariant (possibly with
different capacities, tombstone counts, slot layouts, or hashers) compare
equal under the `PartialEq` implementation iff they hold exactly the same
set of live keys. -/
theorem C8_partial_eq_extensional (t1 t2 : LinearHashTable) (h1 : WF t1)
    (h2 : WF t2) :
    tableEq t1 t2 = some true ↔
      ∀ x, x ∈ t1.iterKeys ↔ x ∈ t2.iterKeys :=
  tableEq_iff t1 t2 h1 h2

/-- Well-formedness of the concrete table `w2`. -/
lemma wf_w2 : WF w2 :=
  ⟨by decide, by decide, by decide, by decide, by decide, by decide,
    by decide, by decide, by decide, h0_contract⟩

/-- Well-formedness of the concrete table `w2b`. -/
lemma wf_w2b : WF w2b :=
  ⟨by decide, by decide, by decide, by decide, by decide, by decide,
    by decide, by decide, by decide, h0_contract⟩

/-- C8 witness: `w2` (dimension 2, keys 0 and 1) and `w2b` (dimension 3,
same keys, one tombstone) compare equal precisely because their key sets
agree. -/
theorem C8_witness :
    WF w2 ∧ WF w2b ∧
      (tableEq w2 w2b = some true ↔
        ∀ x, x ∈ w2.iterKeys ↔ x ∈ w2b.iterKeys) :=
  ⟨wf_w2, wf_w2b, C8_partial_eq_extensional w2 w2b wf_w2 wf_w2b⟩

/-- C9: for the Multiplicative hasher, the multiplier `z = 2r + 1` drawn at
construction is odd, and for `1 ≤ dim ≤ 64`,
`hash(x, dim) = ((z * x) mod 2^64) >> (64 - dim)`, which lies in
`[0, 2^dim)`.  Determinism is inherent: `mhash` is a function of `z`, `x`
and `dim` only. -/
theorem C9_multiplicative_hash (r x dim : Nat) (h1 : 1 ≤ dim)
    (h2 : dim ≤ 64) :
    Multiplicative.odd_random_range r % 2 = 1 ∧
      Multiplicative.mhash (Multiplicative.odd_random_range r) x dim =
        Multiplicative.odd_random_range r * x % 2 ^ 64 / 2 ^ (64 - dim) ∧
      Multiplicative.mhash (Multiplicative.odd_random_range r) x dim <
        2 ^ dim := by
  refine ⟨?_, ?_, mhash_lt _ x dim h1 h2⟩
  · unfold Multiplicative.odd_random_range
    omega
  · unfold Multiplicative.mhash
    rw [Nat.shiftRight_eq_div_pow]

/-- The embedding reproduces a unit-test vector of the source
(`hashers.rs`, test `hash`): `z = 17675664392375410501`,
`hash(4993990495206945374, 1) = 1`. -/
lemma mhash_rust_vector :
    Multiplicative.mhash 17675664392375410501 4993990495206945374 1 = 1 := by
  decide

/-- C9 witness: the claim instantiated at the drawn word
`r = 8837832196187705250` (giving the test multiplier
`z = 17675664392375410501`), key `4993990495206945374`, `dim = 1`. -/
theorem C9_witness :
    (1 ≤ 1 ∧ (1 : Nat) ≤ 64) ∧
      (Multiplicative.odd_random_range 8837832196187705250 % 2 = 1 ∧
       Multiplicative.mhash
          (Multiplicative.odd_random_range 8837832196187705250)
          4993990495206945374 1 =
        Multiplicative.odd_random_range 8837832196187705250 *
          4993990495206945374 % 2 ^ 64 / 2 ^ (64 - 1) ∧
       Multiplicative.mhash
          (Multiplicative.odd_random_range 8837832196187705250)
          4993990495206945374 1 < 2 ^ 1) :=
  ⟨⟨by decide, by decide⟩,
    C9_multiplicative_hash 8837832196187705250 4993990495206945374 1
      (by decide) (by decide)⟩

/-- C10: the implicit representation invariant: on every reachable table,
`len` counts the occupied slots, `q` bounds the non-empty slots from above,
the stored keys are pairwise distinct (each key occupies at most one slot),
and at least one slot is empty. -/
theorem C10_representation_invariant (t : LinearHashTable)
    (h : Reachable t) :
    t.len = countVal t.table ∧ countNonNil t.table ≤ t.q ∧
      t.iterKeys.Nodup ∧ Entry.Nil ∈ t.table := by
  have hwf := reachable_wf h
  refine ⟨hwf.len_eq, hwf.q_ge, hwf.keysNodup, ?_⟩
  obtain ⟨p, hp, hnil⟩ := nil_slot_exists (wf_room hwf)
  exact List.getElem?_mem hnil

/-- C10 witness: the representation invariant at the freshly initialized
table. -/
theorem C10_witness :
    Reachable (LinearHashTable.init h0) ∧
      ((LinearHashTable.init h0).len =
          countVal (LinearHashTable.init h0).table ∧
        countNonNil (LinearHashTable.init h0).table ≤
          (LinearHashTable.init h0).q ∧
        (LinearHashTable.init h0).iterKeys.Nodup ∧
        Entry.Nil ∈ (LinearHashTable.init h0).table) :=
  ⟨Reachable.init h0 h0_contract,
    C10_representation_invariant (LinearHashTable.init h0)
      (Reachable.init h0 h0_contract)⟩

end ODS
